import Mathlib

/-!
QDbf table model: lazy record cache over a soft-delete record store.

Shallow embedding of `src/qdbftablemodel.cpp` (class `QDbfTableModel` and its
private part `QDbfTableModelPrivate`).

* C++ `int` values are modelled by `Int` (sizes stay far below `2^31`, so no
  wrap-around is modelled).
* `QVector<T>` is modelled by `List T`; `QVector::at` and `QVector::remove`
  with an index outside the vector have no defined result and are modelled by
  `none`.
* The record store `QDbfTable` and the record type `QDbfRecord` are declared in
  headers that are not part of the translated sources; they are modelled from
  the written specification of the store interface.  Every store request that
  can be refused takes the store's answer as an explicit Boolean argument.
* Change notifications (`beginInsertRows`, `dataChanged`, ...) and the header
  overrides `m_headers` do not influence the cache and are left out.
-/

namespace QDbf

/-! ## Values and records -/

/-- Cell value held in a record field (the `QVariant` values the model handles). -/
inductive QVariant where
  | invalid
  | text (s : String)
  | number (n : Int)
  | bool (b : Bool)
  | date (d : Nat)
  deriving DecidableEq, Repr

/-- Display and edit roles distinguished by `QDbfTableModel::data`. -/
inductive ItemDataRole where
  | DisplayRole
  | EditRole
  | CheckStateRole
  | OtherRole
  deriving DecidableEq, Repr

/-- Modelled from the spec: `QDbfRecord`, the snapshot of one physical row: its
field values, its physical index in the store and its deleted flag as known at
read time. -/
structure QDbfRecord where
  recordIndex : Int
  isDeleted : Bool
  values : List QVariant
  deriving DecidableEq, Repr

/-- Modelled from the spec: `QDbfRecord::count`, the number of fields. -/
def QDbfRecord.count (r : QDbfRecord) : Int := r.values.length

/-- Modelled from the spec: `QDbfRecord::value`, the value of one field
(an invalid value outside the record). -/
def QDbfRecord.value (r : QDbfRecord) (column : Int) : QVariant :=
  if 0 ≤ column then r.values.getD column.toNat QVariant.invalid else QVariant.invalid

/-- Modelled from the spec: `QDbfRecord::setValue`, in-place update of one field;
the physical index and the deleted flag are kept. -/
def QDbfRecord.setValue (r : QDbfRecord) (column : Int) (value : QVariant) : QDbfRecord :=
  if 0 ≤ column then { r with values := r.values.set column.toNat value } else r

/-! ## The store -/

/-- One physical row of the store file: deleted flag and field values. -/
structure StoredRow where
  deleted : Bool
  values : List QVariant
  deriving DecidableEq, Repr

/-- The row with its deleted flag set. -/
def StoredRow.markDeleted (r : StoredRow) : StoredRow := { r with deleted := true }

/-- The row with one field overwritten. -/
def StoredRow.setValue (column : Nat) (value : QVariant) (r : StoredRow) : StoredRow :=
  { r with values := r.values.set column value }

/-- The snapshot of a physical row read at physical index `index`. -/
def StoredRow.toRecord (r : StoredRow) (index : Int) : QDbfRecord :=
  { recordIndex := index, isDeleted := r.deleted, values := r.values }

/-- The row a fresh record occupies: not deleted, every field empty. -/
def StoredRow.blank (fieldCount : Nat) : StoredRow :=
  { deleted := false, values := List.replicate fieldCount QVariant.invalid }

/-- Modelled from the spec: `QDbfTable`, the record store.  `rows` are the
physical records of the file (deleted ones included), `currentPosition` is the
cursor reported by `at()` (`-1` is "before first"). -/
structure QDbfTable where
  isOpen : Bool
  readOnlyMode : Bool
  fieldCount : Nat
  rows : List StoredRow
  currentPosition : Int
  deriving DecidableEq, Repr

namespace QDbfTable

/-- Modelled from the spec: `physicalCount()`, all physical records, deleted ones
included (`QDbfTable::size`). -/
def size (t : QDbfTable) : Int := t.rows.length

/-- Modelled from the spec: `open(path, mode)`.  `ok` is the store's answer; a
successful open leaves the cursor before the first record. -/
def openTable (t : QDbfTable) (ok : Bool) (readOnly : Bool) : Bool × QDbfTable :=
  if ok then (true, { t with isOpen := true, readOnlyMode := readOnly, currentPosition := -1 })
  else (false, t)

/-- Modelled from the spec: `close()`. -/
def close (t : QDbfTable) : QDbfTable := { t with isOpen := false }

/-- Modelled from the spec: `seek(physicalIndex)`.  `ok` is the store's answer; a
refused seek leaves the cursor where it was. -/
def seek (t : QDbfTable) (ok : Bool) (index : Int) : Bool × QDbfTable :=
  if ok then (true, { t with currentPosition := index }) else (false, t)

/-- Modelled from the spec: `next()`, advances the cursor by one record and
returns false at the end of the physical range (the cursor then stays). -/
def next (t : QDbfTable) : Bool × QDbfTable :=
  if t.currentPosition + 1 < t.size then
    (true, { t with currentPosition := t.currentPosition + 1 })
  else (false, t)

/-- Modelled from the spec: `last()`, moves the cursor to the last physical record. -/
def last (t : QDbfTable) : QDbfTable := { t with currentPosition := t.size - 1 }

/-- Modelled from the spec: `currentRecord()`, the record under the cursor with
its physical index and deleted flag; off the physical range it is the empty
record of the schema. -/
def record (t : QDbfTable) : QDbfRecord :=
  match (if 0 ≤ t.currentPosition then t.rows[t.currentPosition.toNat]? else none) with
  | some r => r.toRecord t.currentPosition
  | none => { recordIndex := -1, isDeleted := false,
              values := List.replicate t.fieldCount QVariant.invalid }

/-- Modelled from the spec: `appendRecord()`, creates one new physical record at
the end (not deleted, all fields empty).  `ok` is the store's answer. -/
def addRecord (t : QDbfTable) (ok : Bool) : Bool × QDbfTable :=
  if ok then (true, { t with rows := t.rows ++ [StoredRow.blank t.fieldCount] })
  else (false, t)

/-- Modelled from the spec: `markDeleted(physicalIndex)`.  `ok` is the store's
answer. -/
def removeRecord (t : QDbfTable) (ok : Bool) (index : Int) : Bool × QDbfTable :=
  if ok then
    (true, if 0 ≤ index then { t with rows := t.rows.modify StoredRow.markDeleted index.toNat }
      else t)
  else (false, t)

/-- Modelled from the spec: `setFieldValue(column, value)`, writes to the record at
the current cursor position.  `ok` is the store's answer. -/
def setValue (t : QDbfTable) (ok : Bool) (column : Int) (value : QVariant) : Bool × QDbfTable :=
  if ok then
    (true, if 0 ≤ t.currentPosition ∧ 0 ≤ column then
        { t with rows := t.rows.modify (StoredRow.setValue column.toNat value)
                          t.currentPosition.toNat }
      else t)
  else (false, t)

/-- Deleted flag the store holds for a physical index (false off the range). -/
def isMarkedDeleted (t : QDbfTable) (index : Int) : Bool :=
  if 0 ≤ index then
    match t.rows[index.toNat]? with
    | some r => r.deleted
    | none => false
  else false

end QDbfTable

/-! ## Qt value types: `QChar`, `QString`, `QVector` -/

/-- `QChar::isSpace`: the code points 9 to 13, 0x20, 0x85, 0xA0 and the
characters of the Unicode separator categories (space, line, paragraph). -/
def QChar.isSpace (c : Char) : Bool :=
  decide (c.toNat = 0x20) || (decide (0x09 ≤ c.toNat) && decide (c.toNat ≤ 0x0d)) ||
  decide (c.toNat = 0x85) || decide (c.toNat = 0xa0) || decide (c.toNat = 0x1680) ||
  (decide (0x2000 ≤ c.toNat) && decide (c.toNat ≤ 0x200a)) ||
  decide (c.toNat = 0x2028) || decide (c.toNat = 0x2029) || decide (c.toNat = 0x202f) ||
  decide (c.toNat = 0x205f) || decide (c.toNat = 0x3000)

/-- `QString::trimmed`: the string without the `QChar::isSpace` characters at its
start and at its end. -/
def QString.trimmed (s : String) : String :=
  String.mk (((s.toList.dropWhile QChar.isSpace).reverse.dropWhile QChar.isSpace).reverse)

/-! ## `QVector` accessors with a precondition -/

/-- `QVector::at(i)`: defined only for `0 <= i < size`. -/
def QVector.at {α : Type} (v : List α) (i : Int) : Option α :=
  if 0 ≤ i then v[i.toNat]? else none

/-- `QVector::remove(i)`: removes the element at index `i`; defined only for
`0 <= i < size`. -/
def QVector.remove {α : Type} (v : List α) (i : Int) : Option (List α) :=
  if 0 ≤ i ∧ i < v.length then some (v.eraseIdx i.toNat) else none

/-! ## The model -/

/-- The file constant `DBF_PREFETCH`. -/
def DBF_PREFETCH : Int := 255

/-- `QModelIndex` of a table cell. -/
structure QModelIndex where
  row : Int
  column : Int
  deriving DecidableEq, Repr

/-- `QModelIndex::isValid`. -/
def QModelIndex.isValid (index : QModelIndex) : Bool :=
  decide (0 ≤ index.row) && decide (0 ≤ index.column)

/-- `QDbfTableModelPrivate` (the file path and the header overrides left out). -/
structure QDbfTableModelPrivate where
  m_dbfTable : QDbfTable
  m_record : QDbfRecord
  m_records : List QDbfRecord
  m_deletedRecordsCount : Int
  m_lastRecordIndex : Int
  m_readOnly : Bool
  deriving DecidableEq, Repr

/-- `QDbfTableModelPrivate::clear`. -/
def QDbfTableModelPrivate.clear (d : QDbfTableModelPrivate) : QDbfTableModelPrivate :=
  { d with
    m_readOnly := false
    m_record := { recordIndex := -1, isDeleted := false, values := [] }
    m_records := []
    m_deletedRecordsCount := 0
    m_lastRecordIndex := -1 }

namespace QDbfTableModel

/-- `QDbfTableModel::rowCount`. -/
def rowCount (d : QDbfTableModelPrivate) : Int := d.m_records.length

/-- `QDbfTableModel::columnCount`. -/
def columnCount (d : QDbfTableModelPrivate) : Int := d.m_record.count

/-- `QDbfTableModel::canFetchMore`. -/
def canFetchMore (d : QDbfTableModelPrivate) : Bool :=
  d.m_dbfTable.isOpen &&
    decide (d.m_records.length + d.m_deletedRecordsCount < d.m_dbfTable.size)

/-- The `while (next())` loop of `QDbfTableModel::fetchMore`.  `fuel` bounds the
number of `next()` calls; `none` means the bound was too small. -/
def fetchLoop (fetchSize : Int) :
    Nat → QDbfTable → List QDbfRecord → Int → Int → Option (QDbfTable × List QDbfRecord × Int)
  | 0, _, _, _, _ => none
  | fuel + 1, t, records, deletedRecordsCount, fetchedRecordSize =>
    match t.next with
    | (false, t1) => some (t1, records, deletedRecordsCount)
    | (true, t1) =>
      let record := t1.record
      if record.isDeleted then
        fetchLoop fetchSize fuel t1 records (deletedRecordsCount + 1) fetchedRecordSize
      else if fetchedRecordSize + 1 == fetchSize then
        some (t1, records ++ [record], deletedRecordsCount)
      else
        fetchLoop fetchSize fuel t1 (records ++ [record]) deletedRecordsCount
          (fetchedRecordSize + 1)

/-- Number of `next()` calls that always suffices for the loop of `fetchMore`:
one per record after the cursor, and the final call that returns false. -/
def fetchFuel (t : QDbfTable) : Nat := (t.size - 1 - t.currentPosition).toNat + 1

/-- `QDbfTableModel::fetchMore`, with the batch size (`DBF_PREFETCH` in the
source) as the argument `prefetch`.  `seekOk` is the store's answer to the seek. -/
def fetchMore (prefetch : Int) (d : QDbfTableModelPrivate) (seekOk : Bool) :
    QDbfTableModelPrivate :=
  match d.m_dbfTable.seek seekOk d.m_lastRecordIndex with
  | (false, t) => { d with m_dbfTable := t }
  | (true, t) =>
    let fetchSize := min (t.size - d.m_records.length - d.m_deletedRecordsCount) prefetch
    match fetchLoop fetchSize (fetchFuel t) t [] 0 0 with
    | none => { d with m_dbfTable := t }
    | some (t1, records, deletedRecordsCount) =>
      { d with
        m_dbfTable := t1
        m_lastRecordIndex := t1.currentPosition
        m_records := d.m_records ++ records
        m_deletedRecordsCount := d.m_deletedRecordsCount + deletedRecordsCount }

/-- `QDbfTableModel::open(bool readOnly)`.  `openOk` and `seekOk` are the store's
answers to the open and to the seek of the first fetch. -/
def openModel (prefetch : Int) (d : QDbfTableModelPrivate) (openOk seekOk : Bool)
    (readOnly : Bool) : Bool × QDbfTableModelPrivate :=
  let d1 := { d.clear with m_readOnly := readOnly }
  match d1.m_dbfTable.openTable openOk d1.m_readOnly with
  | (false, t) => (false, { d1 with m_dbfTable := t })
  | (true, t) =>
    let d2 := { d1 with m_dbfTable := t, m_record := t.record }
    if canFetchMore d2 then (true, fetchMore prefetch d2 seekOk) else (true, d2)

/-- `QDbfTableModel::close`. -/
def close (d : QDbfTableModelPrivate) : QDbfTableModelPrivate :=
  { d.clear with m_dbfTable := d.m_dbfTable.close }

/-- The role switch at the end of `QDbfTableModel::data`. -/
def presentValue (role : ItemDataRole) (value : QVariant) : QVariant :=
  match role with
  | ItemDataRole.DisplayRole | ItemDataRole.EditRole =>
    match value with
    | QVariant.text s => QVariant.text (QString.trimmed s)
    | _ => value
  | ItemDataRole.CheckStateRole =>
    match value with
    | QVariant.bool b => QVariant.number (if b then 2 else 0)
    | _ => QVariant.invalid
  | ItemDataRole.OtherRole => QVariant.invalid

/-- The cached cell read by `QDbfTableModel::data`
(`d->m_records.at(index.row()).value(index.column())`), before the role switch. -/
def cellValue (d : QDbfTableModelPrivate) (index : QModelIndex) : QVariant :=
  match QVector.at d.m_records index.row with
  | none => QVariant.invalid
  | some r => r.value index.column

/-- `QDbfTableModel::data`. -/
def data (d : QDbfTableModelPrivate) (index : QModelIndex) (role : ItemDataRole) : QVariant :=
  if !index.isValid then QVariant.invalid
  else if index.row ≥ rowCount d ∨ index.column ≥ columnCount d then QVariant.invalid
  else presentValue role (cellValue d index)

/-- `QDbfTableModel::setData`.  `seekOk` and `writeOk` are the store's answers to
the seek and to the write.  `none`: the row of a valid index lies outside the
cache (`QVector::at` out of range). -/
def setData (d : QDbfTableModelPrivate) (seekOk writeOk : Bool) (index : QModelIndex)
    (value : QVariant) (role : ItemDataRole) : Option (Bool × QDbfTableModelPrivate) :=
  if !d.m_dbfTable.isOpen then some (false, d)
  else if index.isValid && decide (role = ItemDataRole.EditRole) then
    match QVector.at d.m_records index.row with
    | none => none
    | some r =>
      let recordIndex := r.recordIndex
      match d.m_dbfTable.seek seekOk recordIndex with
      | (false, t) => some (false, { d with m_dbfTable := t })
      | (true, t) =>
        match t.setValue writeOk index.column value with
        | (false, t1) => some (false, { d with m_dbfTable := t1 })
        | (true, t1) =>
          some (true, { d with
            m_dbfTable := t1
            m_records := d.m_records.modify (fun x => x.setValue index.column value)
              index.row.toNat })
  else some (false, d)

/-- The `addRecord` loop of `QDbfTableModel::insertRows`: `n` iterations remain,
`i` is the loop counter, `addOk i` the store's answer to the `i`-th append. -/
def insertLoop (addOk : Nat → Bool) :
    Nat → Nat → QDbfTable → List QDbfRecord → Bool × QDbfTable × List QDbfRecord
  | 0, _, t, records => (true, t, records)
  | n + 1, i, t, records =>
    match t.addRecord (addOk i) with
    | (false, t1) => (false, t1, records)
    | (true, t1) =>
      let t2 := t1.last
      insertLoop addOk n (i + 1) t2 (records ++ [t2.record])

/-- `QDbfTableModel::insertRows`. -/
def insertRows (d : QDbfTableModelPrivate) (addOk : Nat → Bool) (row count : Int) :
    Bool × QDbfTableModelPrivate :=
  if row ≠ d.m_records.length then (false, d)
  else
    match insertLoop addOk count.toNat 0 d.m_dbfTable [] with
    | (result, t, records) =>
      let showRows : Bool :=
        decide (d.m_records.length + records.length + d.m_deletedRecordsCount = t.size)
      if showRows then
        (result, { d with m_dbfTable := t, m_records := d.m_records ++ records })
      else (result, { d with m_dbfTable := t })

/-- The first loop of `QDbfTableModel::removeRows` (marking rows deleted in the
store): `n` iterations remain, `i` is the current row, `removeOk k` the store's
answer to the `k`-th request of the call.  Returns `result`, the store and
`lastRemovedRow`. -/
def removeLoop (removeOk : Nat → Bool) (records : List QDbfRecord) :
    Nat → Nat → Int → QDbfTable → Int → Option (Bool × QDbfTable × Int)
  | 0, _, _, t, lastRemovedRow => some (true, t, lastRemovedRow)
  | n + 1, k, i, t, lastRemovedRow =>
    match QVector.at records i with
    | none => none
    | some r =>
      let recordIndex := r.recordIndex
      match t.removeRecord (removeOk k) recordIndex with
      | (false, t1) => some (false, t1, lastRemovedRow)
      | (true, t1) => removeLoop removeOk records n (k + 1) (i + 1) t1 i

/-- The second loop of `QDbfTableModel::removeRows`
(`for (i = beginRow; i <= lastRemovedRow; ++i) m_records.remove(i)`):
`n` iterations remain, `i` is the current index. -/
def compactLoop : Nat → Int → List QDbfRecord → Option (List QDbfRecord)
  | 0, _, records => some records
  | n + 1, i, records =>
    match QVector.remove records i with
    | none => none
    | some records1 => compactLoop n (i + 1) records1

/-- `QDbfTableModel::removeRows`.  `none`: a vector access of the call was out of
range, so the call has no defined result. -/
def removeRows (d : QDbfTableModelPrivate) (removeOk : Nat → Bool) (row count : Int) :
    Option (Bool × QDbfTableModelPrivate) :=
  if row ≥ d.m_records.length ∨ row + count ≤ 0 then some (false, d)
  else
    let beginRow := max 0 row
    let endRow := min (row + count - 1) (d.m_records.length - 1)
    match removeLoop removeOk d.m_records (endRow + 1 - beginRow).toNat 0 beginRow
        d.m_dbfTable (-1) with
    | none => none
    | some (result, t, lastRemovedRow) =>
      if lastRemovedRow > -1 then
        match compactLoop (lastRemovedRow + 1 - beginRow).toNat beginRow d.m_records with
        | none => none
        | some records =>
          some (result, { d with
            m_dbfTable := t
            m_records := records
            m_deletedRecordsCount :=
              d.m_deletedRecordsCount + (lastRemovedRow - beginRow + 1) })
      else some (result, { d with m_dbfTable := t })

/-- The consumer's loop `while (canFetchMore()) fetchMore()` with every seek
granted, cut off after `fuel` batches. -/
def loadAll (prefetch : Int) : Nat → QDbfTableModelPrivate → QDbfTableModelPrivate
  | 0, d => d
  | fuel + 1, d =>
    if canFetchMore d then loadAll prefetch fuel (fetchMore prefetch d true) else d

/-- States of a session: reached from a successful `open` by `fetchMore` (called
while `canFetchMore` holds), `insertRows`, `removeRows` and `setData`, with any
answers of the store. -/
inductive Reachable (prefetch : Int) : QDbfTableModelPrivate → Prop
  | opened (d0 : QDbfTableModelPrivate) (seekOk readOnly : Bool) :
      Reachable prefetch (openModel prefetch d0 true seekOk readOnly).2
  | loadMore (d : QDbfTableModelPrivate) (seekOk : Bool) :
      Reachable prefetch d → canFetchMore d = true →
      Reachable prefetch (fetchMore prefetch d seekOk)
  | insertRows (d : QDbfTableModelPrivate) (addOk : Nat → Bool) (row count : Int) :
      Reachable prefetch d → Reachable prefetch (insertRows d addOk row count).2
  | removeRows (d : QDbfTableModelPrivate) (removeOk : Nat → Bool) (row count : Int)
      (result : Bool) (d1 : QDbfTableModelPrivate) :
      Reachable prefetch d → removeRows d removeOk row count = some (result, d1) →
      Reachable prefetch d1
  | setData (d : QDbfTableModelPrivate) (seekOk writeOk : Bool) (index : QModelIndex)
      (value : QVariant) (role : ItemDataRole) (result : Bool) (d1 : QDbfTableModelPrivate) :
      Reachable prefetch d → setData d seekOk writeOk index value role = some (result, d1) →
      Reachable prefetch d1

end QDbfTableModel

/-! ## Specification-level notions -/

/-- The non-deleted rows of `rows`, as records, in order; the first row of `rows`
has physical index `pos`. -/
def visibleFrom : Nat → List StoredRow → List QDbfRecord
  | _, [] => []
  | pos, r :: rs =>
    if r.deleted then visibleFrom (pos + 1) rs
    else r.toRecord pos :: visibleFrom (pos + 1) rs

/-- The physical records of a file with the deleted ones removed, in physical
order, each tagged with its physical index. -/
def visibleRecords (rows : List StoredRow) : List QDbfRecord :=
  ((rows.enum.filter (fun p => !p.2.deleted)).map (fun p => p.2.toRecord p.1))

/-- One scan of the fetch loop over the rows after the cursor (the first of them
has physical index `pos`), `fetched` records being collected so far: the number
of rows scanned, the records collected and the number of deleted rows met. -/
def scanRows (fetchSize : Int) : Nat → Int → List StoredRow → Nat × List QDbfRecord × Nat
  | _, _, [] => (0, [], 0)
  | pos, fetched, r :: rs =>
    if r.deleted then
      ((scanRows fetchSize (pos + 1) fetched rs).1 + 1,
       (scanRows fetchSize (pos + 1) fetched rs).2.1,
       (scanRows fetchSize (pos + 1) fetched rs).2.2 + 1)
    else if fetched + 1 = fetchSize then (1, [r.toRecord pos], 0)
    else
      ((scanRows fetchSize (pos + 1) (fetched + 1) rs).1 + 1,
       r.toRecord pos :: (scanRows fetchSize (pos + 1) (fetched + 1) rs).2.1,
       (scanRows fetchSize (pos + 1) (fetched + 1) rs).2.2)

/-- Number of store requests granted before the first refusal, among the `n`
requests numbered `i, i+1, ...`. -/
def grantedCount (ok : Nat → Bool) : Nat → Nat → Nat
  | _, 0 => 0
  | i, n + 1 => if ok i then grantedCount ok (i + 1) n + 1 else 0

/-- The records of `n` freshly appended rows, the first at physical index `base`. -/
def newRecords (fieldCount : Nat) (base : Int) (n : Nat) : List QDbfRecord :=
  (List.range n).map (fun (j : Nat) => (StoredRow.blank fieldCount).toRecord (base + (j : Int)))

/-- The state inside a successful `open` right before its first fetch: cleared
cache, opened store, schema record read. -/
def openedEmpty (d : QDbfTableModelPrivate) (readOnly : Bool) : QDbfTableModelPrivate :=
  { m_dbfTable := { d.m_dbfTable with
      isOpen := true, readOnlyMode := readOnly, currentPosition := -1 }
    m_record := { recordIndex := -1, isDeleted := false,
                  values := List.replicate d.m_dbfTable.fieldCount QVariant.invalid }
    m_records := []
    m_deletedRecordsCount := 0
    m_lastRecordIndex := -1
    m_readOnly := readOnly }

/-- The non-deleted physical records located after the resume cursor. -/
def pendingRecords (d : QDbfTableModelPrivate) : List QDbfRecord :=
  visibleFrom (d.m_lastRecordIndex + 1).toNat
    (d.m_dbfTable.rows.drop (d.m_lastRecordIndex + 1).toNat)

/-- The cache and the deleted tally account for exactly the physical records up
to the resume cursor. -/
def Coupled (d : QDbfTableModelPrivate) : Prop :=
  -1 ≤ d.m_lastRecordIndex ∧ d.m_lastRecordIndex < d.m_dbfTable.size ∧
  (d.m_records.length : Int) + d.m_deletedRecordsCount = d.m_lastRecordIndex + 1

/-- Counting invariant of a session. -/
def CountInv (d : QDbfTableModelPrivate) : Prop :=
  d.m_dbfTable.isOpen = true ∧
  -1 ≤ d.m_lastRecordIndex ∧ d.m_lastRecordIndex < d.m_dbfTable.size ∧
  (d.m_records.length : Int) + d.m_deletedRecordsCount ≤ d.m_dbfTable.size ∧
  ((d.m_records.length : Int) + d.m_deletedRecordsCount < d.m_dbfTable.size →
    (d.m_records.length : Int) + d.m_deletedRecordsCount = d.m_lastRecordIndex + 1)

/-- The physical indices of the cached records, in logical order. -/
def cachedIndices (d : QDbfTableModelPrivate) : List Int :=
  d.m_records.map (fun r => r.recordIndex)

/-- Index invariant of a session: the cached physical indices strictly increase,
lie inside the file and, while records remain to be fetched, do not exceed the
resume cursor. -/
def IndexInv (d : QDbfTableModelPrivate) : Prop :=
  (cachedIndices d).Pairwise (fun a b => a < b) ∧
  (∀ i, i ∈ cachedIndices d → 0 ≤ i ∧ i < d.m_dbfTable.size) ∧
  ((d.m_records.length : Int) + d.m_deletedRecordsCount < d.m_dbfTable.size →
    ∀ i, i ∈ cachedIndices d → i ≤ d.m_lastRecordIndex)

/-- The same session with the store cursor left at position `c`. -/
def withCursor (d : QDbfTableModelPrivate) (c : Int) : QDbfTableModelPrivate :=
  { d with m_dbfTable := { d.m_dbfTable with currentPosition := c } }

/-- The quantity `want` of one fetch batch: `min(batchSize, physicalCount -
rowCount - deletedCount)` (`fetchSize` in `fetchMore`). -/
def want (prefetch : Int) (d : QDbfTableModelPrivate) : Int :=
  min (d.m_dbfTable.size - d.m_records.length - d.m_deletedRecordsCount) prefetch

/-- The rows scanned by a fetch batch that moved the resume cursor from `before`
to `after`: the physical rows at positions `before + 1 .. after`. -/
def scannedRows (rows : List StoredRow) (before after : Int) : List StoredRow :=
  (rows.drop (before + 1).toNat).take (after - before).toNat

/-! ## Sample sessions -/

/-- A live row holding one number. -/
def sampleRow (n : Int) : StoredRow := { deleted := false, values := [QVariant.number n] }

/-- A closed session on a file with the given rows (one column). -/
def sampleSession (rows : List StoredRow) : QDbfTableModelPrivate :=
  { m_dbfTable := { isOpen := false, readOnlyMode := false, fieldCount := 1, rows := rows,
                    currentPosition := -1 }
    m_record := { recordIndex := -1, isDeleted := false, values := [] }
    m_records := []
    m_deletedRecordsCount := 0
    m_lastRecordIndex := -1
    m_readOnly := false }

/-- A session opened read-write on four live rows, all of them loaded. -/
def fourRows : QDbfTableModelPrivate :=
  (QDbfTableModel.openModel DBF_PREFETCH
    (sampleSession [sampleRow 10, sampleRow 11, sampleRow 12, sampleRow 13]) true true false).2

/-- A session opened read-write with batch size 2 on five rows, the second of
them deleted: the first batch holds physical rows 0 and 2, two rows are not
loaded yet. -/
def gapSession : QDbfTableModelPrivate :=
  (QDbfTableModel.openModel 2
    (sampleSession [sampleRow 10, { deleted := true, values := [QVariant.number 11] },
      sampleRow 12, sampleRow 13, sampleRow 14]) true true false).2

/-- Every store request granted. -/
def allGranted : Nat → Bool := fun _ => true

/-- The session `fourRows` after `removeRows(0, 2)` with every request granted. -/
def afterRemoveTwo : QDbfTableModelPrivate :=
  match QDbfTableModel.removeRows fourRows allGranted 0 2 with
  | some (_, d) => d
  | none => fourRows

/-- The session of one loaded live row after one granted `insertRows` at the end:
the new row is mirrored into the cache, the resume cursor still is 0. -/
def staleSession : QDbfTableModelPrivate :=
  (QDbfTableModel.insertRows
    (QDbfTableModel.openModel DBF_PREFETCH (sampleSession [sampleRow 10]) true true false).2
    allGranted 1 1).2

/-- A file of 300 physical rows, the rows 50 to 99 deleted. -/
def threeHundredRows : List StoredRow :=
  (List.range 300).map
    (fun (i : Nat) => { deleted := decide (50 ≤ i) && decide (i < 100),
                        values := [QVariant.number (i : Int)] })

/-- The session on `threeHundredRows` inside `open`, before the first fetch. -/
def threeHundred : QDbfTableModelPrivate := openedEmpty (sampleSession threeHundredRows) false

/-! # Theorems -/

open QDbfTableModel

/-! ## Scanning: pure lemmas -/

theorem visibleFrom_enumFrom (rows : List StoredRow) : ∀ pos : Nat,
    ((rows.enumFrom pos).filter (fun p => !p.2.deleted)).map (fun p => p.2.toRecord p.1)
      = visibleFrom pos rows := by
  induction rows with
  | nil => intro pos; simp [visibleFrom]
  | cons r rs ih =>
    intro pos
    by_cases h : r.deleted = true
    · simp [visibleFrom, List.enumFrom_cons, List.filter_cons, h, ih]
    · simp [visibleFrom, List.enumFrom_cons, List.filter_cons, h, ih]

theorem visibleRecords_eq (rows : List StoredRow) : visibleRecords rows = visibleFrom 0 rows := by
  unfold visibleRecords
  exact visibleFrom_enumFrom rows 0

theorem visibleFrom_append (xs ys : List StoredRow) : ∀ pos : Nat,
    visibleFrom pos (xs ++ ys) = visibleFrom pos xs ++ visibleFrom (pos + xs.length) ys := by
  induction xs with
  | nil => intro pos; simp [visibleFrom]
  | cons r rs ih =>
    intro pos
    by_cases h : r.deleted = true
    · simp [visibleFrom, h, ih, Nat.add_assoc, Nat.add_comm 1]
    · simp [visibleFrom, h, ih, Nat.add_assoc, Nat.add_comm 1]

theorem visibleFrom_length_le (rows : List StoredRow) : ∀ pos : Nat,
    (visibleFrom pos rows).length ≤ rows.length := by
  induction rows with
  | nil => intro pos; simp [visibleFrom]
  | cons r rs ih =>
    intro pos
    by_cases h : r.deleted = true
    · simp [visibleFrom, h]; exact Nat.le_succ_of_le (ih _)
    · simp [visibleFrom, h]; exact ih _

theorem scanRows_count (fs : Int) (rows : List StoredRow) : ∀ (pos : Nat) (fet : Int),
    (scanRows fs pos fet rows).2.1.length + (scanRows fs pos fet rows).2.2
      = (scanRows fs pos fet rows).1 := by
  induction rows with
  | nil => intro pos fet; simp [scanRows]
  | cons r rs ih =>
    intro pos fet
    by_cases h : r.deleted = true
    · simp only [scanRows, h, if_true]
      have := ih (pos + 1) fet
      omega
    · replace h : r.deleted = false := by simpa using h
      by_cases h2 : fet + 1 = fs
      · simp [scanRows, h, h2]
      · simp only [scanRows, h, h2, Bool.false_eq_true, if_false, List.length_cons]
        have := ih (pos + 1) (fet + 1)
        omega

theorem scanRows_le (fs : Int) (rows : List StoredRow) : ∀ (pos : Nat) (fet : Int),
    (scanRows fs pos fet rows).1 ≤ rows.length := by
  induction rows with
  | nil => intro pos fet; simp [scanRows]
  | cons r rs ih =>
    intro pos fet
    by_cases h : r.deleted = true
    · simp only [scanRows, h, if_true, List.length_cons]
      have := ih (pos + 1) fet
      omega
    · replace h : r.deleted = false := by simpa using h
      by_cases h2 : fet + 1 = fs
      · simp [scanRows, h, h2]
      · simp only [scanRows, h, h2, Bool.false_eq_true, if_false, List.length_cons]
        have := ih (pos + 1) (fet + 1)
        omega

theorem scanRows_progress (fs : Int) (rows : List StoredRow) (pos : Nat) (fet : Int)
    (hne : rows ≠ []) : 1 ≤ (scanRows fs pos fet rows).1 := by
  cases rows with
  | nil => exact absurd rfl hne
  | cons r rs =>
    by_cases h : r.deleted = true
    · simp [scanRows, h]
    · replace h : r.deleted = false := by simpa using h
      by_cases h2 : fet + 1 = fs
      · simp [scanRows, h, h2]
      · simp [scanRows, h, h2]

theorem scanRows_visible (fs : Int) (rows : List StoredRow) : ∀ (pos : Nat) (fet : Int),
    (scanRows fs pos fet rows).2.1 ++
        visibleFrom (pos + (scanRows fs pos fet rows).1)
          (rows.drop (scanRows fs pos fet rows).1)
      = visibleFrom pos rows := by
  induction rows with
  | nil => intro pos fet; simp [scanRows, visibleFrom]
  | cons r rs ih =>
    intro pos fet
    by_cases h : r.deleted = true
    · simp only [scanRows, h, if_true, visibleFrom, List.drop_succ_cons]
      have := ih (pos + 1) fet
      rw [← this]
      congr 2
      omega
    · replace h : r.deleted = false := by simpa using h
      by_cases h2 : fet + 1 = fs
      · simp [scanRows, h, h2, visibleFrom]
      · simp only [scanRows, h, h2, Bool.false_eq_true, if_false, visibleFrom,
          List.drop_succ_cons, List.cons_append]
        have := ih (pos + 1) (fet + 1)
        rw [← this]
        congr 3
        omega

theorem scanRows_stop (fs : Int) (rows : List StoredRow) : ∀ (pos : Nat) (fet : Int),
    (scanRows fs pos fet rows).1 = rows.length ∨
      fet + (scanRows fs pos fet rows).2.1.length = fs := by
  induction rows with
  | nil => intro pos fet; simp [scanRows]
  | cons r rs ih =>
    intro pos fet
    by_cases h : r.deleted = true
    · simp only [scanRows, h, if_true, List.length_cons]
      rcases ih (pos + 1) fet with h1 | h1
      · left; omega
      · right; exact h1
    · replace h : r.deleted = false := by simpa using h
      by_cases h2 : fet + 1 = fs
      · right; simp [scanRows, h, h2]
      · simp only [scanRows, h, h2, Bool.false_eq_true, if_false, List.length_cons]
        rcases ih (pos + 1) (fet + 1) with h1 | h1
        · left; omega
        · right; push_cast; omega

theorem scanRows_take (fs : Int) (rows : List StoredRow) : ∀ (pos : Nat) (fet : Int),
    fet < fs →
    (scanRows fs pos fet rows).2.1 = (visibleFrom pos rows).take (fs - fet).toNat := by
  induction rows with
  | nil => intro pos fet _; simp [scanRows, visibleFrom]
  | cons r rs ih =>
    intro pos fet hlt
    by_cases h : r.deleted = true
    · simp only [scanRows, h, if_true, visibleFrom]
      exact ih (pos + 1) fet hlt
    · replace h : r.deleted = false := by simpa using h
      by_cases h2 : fet + 1 = fs
      · have h3 : (fs - fet).toNat = 1 := by
          have : fs - fet = 1 := by omega
          rw [this]; rfl
        simp [scanRows, h, h2, visibleFrom, h3]
      · have h3 : (fs - fet).toNat = (fs - (fet + 1)).toNat + 1 := by
          have e1 := Int.toNat_of_nonneg (show 0 ≤ fs - fet by omega)
          have e2 := Int.toNat_of_nonneg (show 0 ≤ fs - (fet + 1) by omega)
          omega
        simp only [scanRows, h, h2, Bool.false_eq_true, if_false, visibleFrom, h3,
          List.take_succ_cons]
        rw [ih (pos + 1) (fet + 1) (by omega)]

/-- Without a positive quota the loop never breaks: it scans to the end of the file. -/
theorem scanRows_all (fs : Int) (rows : List StoredRow) : ∀ (pos : Nat) (fet : Int),
    fs ≤ fet →
    (scanRows fs pos fet rows).1 = rows.length ∧
      (scanRows fs pos fet rows).2.1 = visibleFrom pos rows := by
  induction rows with
  | nil => intro pos fet _; simp [scanRows, visibleFrom]
  | cons r rs ih =>
    intro pos fet hle
    by_cases h : r.deleted = true
    · simp only [scanRows, h, if_true, visibleFrom, List.length_cons]
      have := ih (pos + 1) fet hle
      exact ⟨by omega, this.2⟩
    · replace h : r.deleted = false := by simpa using h
      have h2 : ¬ fet + 1 = fs := by omega
      simp only [scanRows, h, h2, Bool.false_eq_true, if_false, visibleFrom, List.length_cons]
      have := ih (pos + 1) (fet + 1) (by omega)
      exact ⟨by omega, by rw [this.2]⟩

/-! ## The fetch loop computes the scan -/

theorem fetchLoop_eq_scan (fs : Int) : ∀ (fuel : Nat) (t : QDbfTable) (p : Nat)
    (recs : List QDbfRecord) (del fet : Int),
    t.currentPosition = (p : Int) - 1 → p ≤ t.rows.length → t.rows.length - p < fuel →
    fetchLoop fs fuel t recs del fet =
      some ({ t with currentPosition :=
                ((p + (scanRows fs p fet (t.rows.drop p)).1 : Nat) : Int) - 1 },
            recs ++ (scanRows fs p fet (t.rows.drop p)).2.1,
            del + ((scanRows fs p fet (t.rows.drop p)).2.2 : Nat)) := by
  intro fuel
  induction fuel with
  | zero => intro t p recs del fet _ _ h; omega
  | succ n ih =>
    intro t p recs del fet hpos hle hfuel
    by_cases hp : p < t.rows.length
    · have hnext : t.next = (true, { t with currentPosition := (p : Int) }) := by
        unfold QDbfTable.next QDbfTable.size
        rw [hpos]
        have : (p : Int) - 1 + 1 < (t.rows.length : Int) := by omega
        simp [hp]
      have hdrop : t.rows.drop p = t.rows[p] :: t.rows.drop (p + 1) :=
        List.drop_eq_getElem_cons hp
      have hrec : ({ t with currentPosition := (p : Int) } : QDbfTable).record
          = (t.rows[p]).toRecord (p : Int) := by
        unfold QDbfTable.record
        simp [List.getElem?_eq_getElem hp]
      have hih := fun recs del fet =>
        ih { t with currentPosition := (p : Int) } (p + 1) recs del fet
          (by simp) (by simpa using hp) (by simp; omega)
      simp only at hih
      unfold fetchLoop
      rw [hnext]
      simp only [hrec, hdrop]
      by_cases hd : (t.rows[p]).deleted = true
      · simp only [StoredRow.toRecord, hd, if_true, scanRows]
        rw [hih]
        simp only [Option.some.injEq, Prod.mk.injEq, true_and]
        refine ⟨?_, ?_⟩
        · congr 1; push_cast; omega
        · push_cast; omega
      · replace hd : (t.rows[p]).deleted = false := by simpa using hd
        by_cases h2 : fet + 1 = fs
        · simp [StoredRow.toRecord, hd, h2, scanRows]
        · simp only [StoredRow.toRecord, hd, h2, Bool.false_eq_true, if_false, scanRows,
            beq_iff_eq]
          rw [hih]
          simp only [Option.some.injEq, Prod.mk.injEq, List.append_assoc,
            List.singleton_append, true_and]
          refine ⟨?_, ?_⟩
          · congr 1; push_cast; omega
          · simp [StoredRow.toRecord]
    · have hp2 : p = t.rows.length := by omega
      have hnext : t.next = (false, t) := by
        unfold QDbfTable.next QDbfTable.size
        rw [hpos]
        have : ¬ ((p : Int) - 1 + 1 < (t.rows.length : Int)) := by omega
        simp [hp2]
      unfold fetchLoop
      rw [hnext]
      have hdrop : t.rows.drop p = [] := by rw [hp2]; simp
      simp only [hdrop, scanRows]
      simp only [Option.some.injEq, Prod.mk.injEq]
      refine ⟨?_, by simp, by simp⟩
      cases t
      simp at hpos ⊢
      omega

/-! ## One fetch batch -/

theorem fetchMore_refused (B : Int) (d : QDbfTableModelPrivate) : fetchMore B d false = d := by
  simp [fetchMore, QDbfTable.seek]

theorem fetchMore_granted (B : Int) (d : QDbfTableModelPrivate) (p : Nat)
    (hlast : d.m_lastRecordIndex = (p : Int) - 1) (hle : p ≤ d.m_dbfTable.rows.length) :
    fetchMore B d true =
      { d with
        m_dbfTable := { d.m_dbfTable with currentPosition :=
          ((p + (scanRows (min (d.m_dbfTable.size - d.m_records.length - d.m_deletedRecordsCount) B)
            p 0 (d.m_dbfTable.rows.drop p)).1 : Nat) : Int) - 1 }
        m_lastRecordIndex :=
          ((p + (scanRows (min (d.m_dbfTable.size - d.m_records.length - d.m_deletedRecordsCount) B)
            p 0 (d.m_dbfTable.rows.drop p)).1 : Nat) : Int) - 1
        m_records := d.m_records ++
          (scanRows (min (d.m_dbfTable.size - d.m_records.length - d.m_deletedRecordsCount) B)
            p 0 (d.m_dbfTable.rows.drop p)).2.1
        m_deletedRecordsCount := d.m_deletedRecordsCount +
          ((scanRows (min (d.m_dbfTable.size - d.m_records.length - d.m_deletedRecordsCount) B)
            p 0 (d.m_dbfTable.rows.drop p)).2.2 : Nat) } := by
  have hloop := fetchLoop_eq_scan
    (min (d.m_dbfTable.size - d.m_records.length - d.m_deletedRecordsCount) B)
    (fetchFuel { d.m_dbfTable with currentPosition := d.m_lastRecordIndex })
    { d.m_dbfTable with currentPosition := d.m_lastRecordIndex } p [] 0 0
    (by simpa using hlast) (by simpa using hle)
    (by simp [fetchFuel, QDbfTable.size, hlast])
  simp only [fetchMore, QDbfTable.seek, if_true]
  simp only [QDbfTable.size] at hloop ⊢
  rw [hloop]
  simp


theorem Coupled.cursor {d : QDbfTableModelPrivate} (h : Coupled d) :
    d.m_lastRecordIndex = (((d.m_lastRecordIndex + 1).toNat : Nat) : Int) - 1 ∧
      (d.m_lastRecordIndex + 1).toNat ≤ d.m_dbfTable.rows.length := by
  obtain ⟨h1, h2, _⟩ := h
  have e := Int.toNat_of_nonneg (show 0 ≤ d.m_lastRecordIndex + 1 by omega)
  unfold QDbfTable.size at h2
  constructor <;> omega

/-- Effect of one fetch batch on a coupled state. -/
theorem fetchMore_coupled (B : Int) (d : QDbfTableModelPrivate) (seekOk : Bool)
    (h : Coupled d) :
    Coupled (fetchMore B d seekOk) ∧
    (fetchMore B d seekOk).m_dbfTable.rows = d.m_dbfTable.rows ∧
    (fetchMore B d seekOk).m_dbfTable.isOpen = d.m_dbfTable.isOpen ∧
    (fetchMore B d seekOk).m_records ++ pendingRecords (fetchMore B d seekOk)
      = d.m_records ++ pendingRecords d ∧
    (∃ coll, (fetchMore B d seekOk).m_records = d.m_records ++ coll) ∧
    d.m_deletedRecordsCount ≤ (fetchMore B d seekOk).m_deletedRecordsCount ∧
    (seekOk = true →
      (fetchMore B d seekOk).m_lastRecordIndex + 1 = d.m_dbfTable.size ∨
      ((fetchMore B d seekOk).m_records.length : Int) = d.m_records.length +
        min (d.m_dbfTable.size - d.m_records.length - d.m_deletedRecordsCount) B) ∧
    (seekOk = true →
      (d.m_records.length : Int) + d.m_deletedRecordsCount < d.m_dbfTable.size →
      (d.m_records.length : Int) + d.m_deletedRecordsCount <
        ((fetchMore B d seekOk).m_records.length : Int)
          + (fetchMore B d seekOk).m_deletedRecordsCount) := by
  cases seekOk with
  | false =>
    rw [fetchMore_refused]
    exact ⟨h, rfl, rfl, rfl, ⟨[], by simp⟩, le_refl _, (fun h0 => by cases h0),
      (fun h0 => by cases h0)⟩
  | true =>
    obtain ⟨hc1, hc2⟩ := h.cursor
    obtain ⟨h1, h2, h3⟩ := h
    rw [fetchMore_granted B d _ hc1 hc2]
    generalize hfs : min (d.m_dbfTable.size - d.m_records.length - d.m_deletedRecordsCount) B
      = fs
    generalize hp : (d.m_lastRecordIndex + 1).toNat = p at hc1 hc2
    have hcount := scanRows_count fs (d.m_dbfTable.rows.drop p) p 0
    have hle := scanRows_le fs (d.m_dbfTable.rows.drop p) p 0
    have hvis := scanRows_visible fs (d.m_dbfTable.rows.drop p) p 0
    have hstop := scanRows_stop fs (d.m_dbfTable.rows.drop p) p 0
    have hlen : (d.m_dbfTable.rows.drop p).length = d.m_dbfTable.rows.length - p := by simp
    rw [hlen] at hle hstop
    unfold QDbfTable.size at h2 hfs ⊢
    refine ⟨⟨?_, ?_, ?_⟩, rfl, rfl, ?_, ⟨_, rfl⟩, ?_, ?_, ?_⟩
    · simp only; omega
    · simp only [QDbfTable.size]; omega
    · simp only [List.length_append]; push_cast; omega
    · simp only [pendingRecords, hp]
      have e : ((((p + (scanRows fs p 0 (d.m_dbfTable.rows.drop p)).1 : Nat) : Int) - 1 + 1).toNat)
          = p + (scanRows fs p 0 (d.m_dbfTable.rows.drop p)).1 := by
        simp only [sub_add_cancel, Int.toNat_ofNat]
      rw [e, List.append_assoc, ← hvis, List.drop_drop]
    · simp only; omega
    · intro _
      simp only [List.length_append]
      rcases hstop with hs | hs
      · left; omega
      · right; push_cast; omega
    · intro _ hgap
      simp only [List.length_append]
      have hne : d.m_dbfTable.rows.drop p ≠ [] := by
        intro hnil
        have := congrArg List.length hnil
        simp at this
        omega
      have := scanRows_progress fs (d.m_dbfTable.rows.drop p) p 0 hne
      push_cast
      omega

/-- The rows of the first batch are the first `fetchSize` pending records. -/
theorem fetchMore_take (B : Int) (d : QDbfTableModelPrivate) (h : Coupled d)
    (hfs : 0 < min (d.m_dbfTable.size - d.m_records.length - d.m_deletedRecordsCount) B) :
    (fetchMore B d true).m_records = d.m_records ++ (pendingRecords d).take
      (min (d.m_dbfTable.size - d.m_records.length - d.m_deletedRecordsCount) B).toNat := by
  obtain ⟨hc1, hc2⟩ := h.cursor
  rw [fetchMore_granted B d _ hc1 hc2]
  simp only [pendingRecords]
  rw [scanRows_take _ _ _ _ hfs]
  simp

/-! ## Loading to exhaustion -/

theorem canFetchMore_eq_false_iff (d : QDbfTableModelPrivate) (hopen : d.m_dbfTable.isOpen = true) :
    canFetchMore d = false ↔
      d.m_dbfTable.size ≤ (d.m_records.length : Int) + d.m_deletedRecordsCount := by
  simp [canFetchMore, hopen]

theorem pendingRecords_of_done (d : QDbfTableModelPrivate) (h : Coupled d)
    (hdone : d.m_dbfTable.size ≤ (d.m_records.length : Int) + d.m_deletedRecordsCount) :
    pendingRecords d = [] := by
  obtain ⟨hc1, hc2⟩ := h.cursor
  obtain ⟨h1, h2, h3⟩ := h
  unfold QDbfTable.size at h2 hdone
  have : d.m_dbfTable.rows.length ≤ (d.m_lastRecordIndex + 1).toNat := by omega
  simp [pendingRecords, List.drop_eq_nil_of_le this, visibleFrom]

theorem loadAll_coupled (B : Int) : ∀ (fuel : Nat) (d : QDbfTableModelPrivate),
    Coupled d → d.m_dbfTable.isOpen = true →
    d.m_dbfTable.size - ((d.m_records.length : Int) + d.m_deletedRecordsCount) ≤ fuel →
    canFetchMore (loadAll B fuel d) = false ∧
    Coupled (loadAll B fuel d) ∧
    (loadAll B fuel d).m_dbfTable.rows = d.m_dbfTable.rows ∧
    (loadAll B fuel d).m_dbfTable.isOpen = true ∧
    (loadAll B fuel d).m_records = d.m_records ++ pendingRecords d ∧
    ((loadAll B fuel d).m_records.length : Int) + (loadAll B fuel d).m_deletedRecordsCount
      = d.m_dbfTable.size := by
  intro fuel
  induction fuel with
  | zero =>
    intro d hc hopen hfuel
    have hdone : d.m_dbfTable.size ≤ (d.m_records.length : Int) + d.m_deletedRecordsCount := by
      simp at hfuel; omega
    have hp := pendingRecords_of_done d hc hdone
    obtain ⟨h1, h2, h3⟩ := hc
    refine ⟨(canFetchMore_eq_false_iff d hopen).2 hdone, ⟨h1, h2, h3⟩, rfl, hopen, ?_, ?_⟩
    · simp [loadAll, hp]
    · simp only [loadAll]; omega
  | succ n ih =>
    intro d hc hopen hfuel
    by_cases hcan : canFetchMore d = true
    · have hgap : (d.m_records.length : Int) + d.m_deletedRecordsCount < d.m_dbfTable.size := by
        simpa [canFetchMore, hopen] using hcan
      obtain ⟨f1, f2, f3, f4, _, _, _, f7⟩ := fetchMore_coupled B d true hc
      have hsize : (fetchMore B d true).m_dbfTable.size = d.m_dbfTable.size := by
        simp [QDbfTable.size, f2]
      have := ih (fetchMore B d true) f1 (by rw [f3]; exact hopen)
        (by rw [hsize]; have := f7 rfl hgap; push_cast at hfuel ⊢; omega)
      obtain ⟨g1, g2, g3, g4, g5, g6⟩ := this
      simp only [loadAll, hcan, if_true]
      exact ⟨g1, g2, by rw [g3, f2], g4, by rw [g5, f4], by rw [g6, hsize]⟩
    · replace hcan : canFetchMore d = false := by simpa using hcan
      have hdone := (canFetchMore_eq_false_iff d hopen).1 hcan
      have hp := pendingRecords_of_done d hc hdone
      obtain ⟨h1, h2, h3⟩ := hc
      have hl : loadAll B (n + 1) d = d := by simp [loadAll, hcan]
      rw [hl]
      refine ⟨hcan, ⟨h1, h2, h3⟩, rfl, hopen, by simp [hp], ?_⟩
      omega

/-! ## Opening a session -/

theorem openModel_eq (B : Int) (d0 : QDbfTableModelPrivate) (seekOk readOnly : Bool) :
    openModel B d0 true seekOk readOnly =
      (true, if canFetchMore (openedEmpty d0 readOnly) = true
        then fetchMore B (openedEmpty d0 readOnly) seekOk else openedEmpty d0 readOnly) := by
  have h : ∀ b : Bool, (if b = true then (true, fetchMore B (openedEmpty d0 readOnly) seekOk)
      else (true, openedEmpty d0 readOnly)) =
      (true, if b = true then fetchMore B (openedEmpty d0 readOnly) seekOk
        else openedEmpty d0 readOnly) := by
    intro b; cases b <;> rfl
  rw [← h]
  rfl

theorem openedEmpty_coupled (d0 : QDbfTableModelPrivate) (readOnly : Bool) :
    Coupled (openedEmpty d0 readOnly) := by
  refine ⟨le_refl _, ?_, by simp [openedEmpty]⟩
  simp only [openedEmpty, QDbfTable.size]
  omega

theorem openedEmpty_pending (d0 : QDbfTableModelPrivate) (readOnly : Bool) :
    pendingRecords (openedEmpty d0 readOnly) = visibleFrom 0 d0.m_dbfTable.rows := by
  simp [pendingRecords, openedEmpty]

/-- State after a successful open: coupled, store open with the same rows, and
cache plus pending records are the visible records of the file. -/
theorem openModel_spec (B : Int) (d0 : QDbfTableModelPrivate) (seekOk readOnly : Bool) :
    (openModel B d0 true seekOk readOnly).1 = true ∧
    Coupled (openModel B d0 true seekOk readOnly).2 ∧
    (openModel B d0 true seekOk readOnly).2.m_dbfTable.isOpen = true ∧
    (openModel B d0 true seekOk readOnly).2.m_dbfTable.rows = d0.m_dbfTable.rows ∧
    (openModel B d0 true seekOk readOnly).2.m_records ++
        pendingRecords (openModel B d0 true seekOk readOnly).2
      = visibleFrom 0 d0.m_dbfTable.rows ∧
    0 ≤ (openModel B d0 true seekOk readOnly).2.m_deletedRecordsCount := by
  rw [openModel_eq]
  have hc := openedEmpty_coupled d0 readOnly
  have hp := openedEmpty_pending d0 readOnly
  by_cases hcan : canFetchMore (openedEmpty d0 readOnly) = true
  · rw [if_pos hcan]
    obtain ⟨f1, f2, f3, f4, _, f6, _⟩ := fetchMore_coupled B _ seekOk hc
    refine ⟨rfl, f1, by rw [f3]; rfl, by rw [f2]; rfl, by rw [f4, hp]; rfl, ?_⟩
    exact le_trans (by simp [openedEmpty]) f6
  · rw [if_neg hcan]
    exact ⟨rfl, hc, rfl, rfl, by rw [hp]; rfl, by simp [openedEmpty]⟩

/-- C1: after a successful open, repeating `fetchMore` while `canFetchMore` holds
(every seek granted) ends, within `physicalCount` batches, in a state where
`canFetchMore` is false, `rowCount + deletedCount = physicalCount` and the cache
holds exactly the physical records with the deleted ones removed, in physical
order; the final cache is therefore the same for every batch size, and with the
batch size equal to `physicalCount` the single batch fetched by `open` already
gives it. -/
theorem loadAll_after_open (B : Int) (d0 : QDbfTableModelPrivate) (seekOk readOnly : Bool) :
    (openModel B d0 true seekOk readOnly).1 = true ∧
    canFetchMore
      (loadAll B d0.m_dbfTable.rows.length (openModel B d0 true seekOk readOnly).2) = false ∧
    rowCount (loadAll B d0.m_dbfTable.rows.length (openModel B d0 true seekOk readOnly).2)
      + (loadAll B d0.m_dbfTable.rows.length
          (openModel B d0 true seekOk readOnly).2).m_deletedRecordsCount
      = (loadAll B d0.m_dbfTable.rows.length
          (openModel B d0 true seekOk readOnly).2).m_dbfTable.size ∧
    (loadAll B d0.m_dbfTable.rows.length
        (openModel B d0 true seekOk readOnly).2).m_dbfTable.rows = d0.m_dbfTable.rows ∧
    (loadAll B d0.m_dbfTable.rows.length (openModel B d0 true seekOk readOnly).2).m_records
      = visibleRecords d0.m_dbfTable.rows ∧
    (∀ (B1 : Int) (seekOk1 : Bool),
      (loadAll B1 d0.m_dbfTable.rows.length
          (openModel B1 d0 true seekOk1 readOnly).2).m_records
        = (loadAll B d0.m_dbfTable.rows.length
            (openModel B d0 true seekOk readOnly).2).m_records) ∧
    (openModel d0.m_dbfTable.size d0 true true readOnly).2.m_records
      = visibleRecords d0.m_dbfTable.rows := by
  have key : ∀ (B1 : Int) (seekOk1 : Bool),
      canFetchMore (loadAll B1 d0.m_dbfTable.rows.length
          (openModel B1 d0 true seekOk1 readOnly).2) = false ∧
      rowCount (loadAll B1 d0.m_dbfTable.rows.length (openModel B1 d0 true seekOk1 readOnly).2)
        + (loadAll B1 d0.m_dbfTable.rows.length
            (openModel B1 d0 true seekOk1 readOnly).2).m_deletedRecordsCount
        = (loadAll B1 d0.m_dbfTable.rows.length
            (openModel B1 d0 true seekOk1 readOnly).2).m_dbfTable.size ∧
      (loadAll B1 d0.m_dbfTable.rows.length
          (openModel B1 d0 true seekOk1 readOnly).2).m_dbfTable.rows = d0.m_dbfTable.rows ∧
      (loadAll B1 d0.m_dbfTable.rows.length (openModel B1 d0 true seekOk1 readOnly).2).m_records
        = visibleRecords d0.m_dbfTable.rows := by
    intro B1 seekOk1
    obtain ⟨_, o2, o3, o4, o5, o6⟩ := openModel_spec B1 d0 seekOk1 readOnly
    have hsize : (openModel B1 d0 true seekOk1 readOnly).2.m_dbfTable.size
        = (d0.m_dbfTable.rows.length : Int) := by simp [QDbfTable.size, o4]
    obtain ⟨l1, _, l3, _, l5, l6⟩ := loadAll_coupled B1 d0.m_dbfTable.rows.length
      (openModel B1 d0 true seekOk1 readOnly).2 o2 o3 (by rw [hsize]; omega)
    refine ⟨l1, ?_, by rw [l3, o4], by rw [l5, o5, visibleRecords_eq]⟩
    unfold rowCount
    rw [l6]
    simp [QDbfTable.size, l3]
  obtain ⟨k1, k2, k3, k4⟩ := key B seekOk
  refine ⟨(openModel_spec B d0 seekOk readOnly).1, k1, k2, k3, k4, ?_, ?_⟩
  · intro B1 seekOk1
    rw [(key B1 seekOk1).2.2.2, k4]
  · rw [openModel_eq]
    have hc := openedEmpty_coupled d0 readOnly
    have hp := openedEmpty_pending d0 readOnly
    by_cases hcan : canFetchMore (openedEmpty d0 readOnly) = true
    · rw [if_pos hcan]
      obtain ⟨f1, f2, _, f4, _, f6, f7, _⟩ :=
        fetchMore_coupled d0.m_dbfTable.size (openedEmpty d0 readOnly) true hc
      have hdone : (fetchMore d0.m_dbfTable.size (openedEmpty d0 readOnly) true).m_dbfTable.size
          ≤ ((fetchMore d0.m_dbfTable.size (openedEmpty d0 readOnly) true).m_records.length : Int)
            + (fetchMore d0.m_dbfTable.size
                (openedEmpty d0 readOnly) true).m_deletedRecordsCount := by
        have hs : (fetchMore d0.m_dbfTable.size (openedEmpty d0 readOnly) true).m_dbfTable.size
            = d0.m_dbfTable.size :=
          congrArg (fun l => (List.length l : Int)) f2
        rw [hs]
        obtain ⟨_, _, c3⟩ := f1
        have e1 : (openedEmpty d0 readOnly).m_dbfTable.size = d0.m_dbfTable.size := rfl
        have e2 : ((openedEmpty d0 readOnly).m_records.length : Int) = 0 := rfl
        have e3 : (openedEmpty d0 readOnly).m_deletedRecordsCount = 0 := rfl
        rw [e1, e2, e3] at f7
        rw [e3] at f6
        rcases f7 rfl with h7 | h7
        · omega
        · simp only [sub_zero, min_self, zero_add] at h7
          omega
      have hpend := pendingRecords_of_done _ f1 hdone
      rw [hpend, hp] at f4
      simpa [visibleRecords_eq, openedEmpty] using f4
    · rw [if_neg hcan]
      have hopen : (openedEmpty d0 readOnly).m_dbfTable.isOpen = true := rfl
      replace hcan : canFetchMore (openedEmpty d0 readOnly) = false := by simpa using hcan
      have hdone := (canFetchMore_eq_false_iff _ hopen).1 hcan
      have hpend := pendingRecords_of_done _ hc hdone
      rw [hp] at hpend
      rw [visibleRecords_eq, hpend]
      rfl

/-! ## The loops of `insertRows` and `removeRows` -/

theorem grantedCount_le (ok : Nat → Bool) : ∀ (n i : Nat), grantedCount ok i n ≤ n := by
  intro n
  induction n with
  | zero => intro i; simp [grantedCount]
  | succ n ih =>
    intro i
    by_cases h : ok i = true
    · simp only [grantedCount, h, if_true]; have := ih (i + 1); omega
    · simp [grantedCount, h]

theorem grantedCount_all (ok : Nat → Bool) : ∀ (n i : Nat),
    (∀ j, i ≤ j → j < i + n → ok j = true) → grantedCount ok i n = n := by
  intro n
  induction n with
  | zero => intro i _; simp [grantedCount]
  | succ n ih =>
    intro i hall
    have h0 : ok i = true := hall i (le_refl _) (by omega)
    simp only [grantedCount, h0, if_true]
    rw [ih (i + 1) (fun j h1 h2 => hall j (by omega) (by omega))]

theorem newRecords_succ (fc : Nat) (base : Int) (n : Nat) :
    newRecords fc base (n + 1)
      = (StoredRow.blank fc).toRecord base :: newRecords fc (base + 1) n := by
  simp only [newRecords, List.range_succ_eq_map, List.map_cons, List.map_map]
  congr 1
  · simp
  · apply List.map_congr_left
    intro j _
    simp only [Function.comp, Nat.succ_eq_add_one]
    congr 1
    push_cast
    omega

theorem newRecords_length (fc : Nat) (base : Int) (n : Nat) :
    (newRecords fc base n).length = n := by
  simp [newRecords]

theorem insertLoop_spec (addOk : Nat → Bool) : ∀ (n i : Nat) (t : QDbfTable)
    (recs : List QDbfRecord),
    (insertLoop addOk n i t recs).1 = decide (grantedCount addOk i n = n) ∧
    (insertLoop addOk n i t recs).2.1.rows
      = t.rows ++ List.replicate (grantedCount addOk i n) (StoredRow.blank t.fieldCount) ∧
    (insertLoop addOk n i t recs).2.1.isOpen = t.isOpen ∧
    (insertLoop addOk n i t recs).2.1.fieldCount = t.fieldCount ∧
    (insertLoop addOk n i t recs).2.1.readOnlyMode = t.readOnlyMode ∧
    (insertLoop addOk n i t recs).2.1.currentPosition
      = (if grantedCount addOk i n = 0 then t.currentPosition
         else t.size + grantedCount addOk i n - 1) ∧
    (insertLoop addOk n i t recs).2.2
      = recs ++ newRecords t.fieldCount t.size (grantedCount addOk i n) := by
  intro n
  induction n with
  | zero => intro i t recs; simp [insertLoop, grantedCount, newRecords]
  | succ n ih =>
    intro i t recs
    by_cases h : addOk i = true
    · have hadd : t.addRecord (addOk i)
          = (true, { t with rows := t.rows ++ [StoredRow.blank t.fieldCount] }) := by
        simp [QDbfTable.addRecord, h]
      have hrec : ({ t with rows := t.rows ++ [StoredRow.blank t.fieldCount] } : QDbfTable).last.record
          = (StoredRow.blank t.fieldCount).toRecord t.size := by
        simp [QDbfTable.last, QDbfTable.record, QDbfTable.size]
      obtain ⟨i1, i2, i3, i4, i5, i6, i7⟩ := ih (i + 1)
        ({ t with rows := t.rows ++ [StoredRow.blank t.fieldCount] } : QDbfTable).last
        (recs ++ [(StoredRow.blank t.fieldCount).toRecord t.size])
      have hg : grantedCount addOk i (n + 1) = grantedCount addOk (i + 1) n + 1 := by
        simp [grantedCount, h]
      have hsz : ({ t with rows := t.rows ++ [StoredRow.blank t.fieldCount] } : QDbfTable).last.size
          = t.size + 1 := by
        simp [QDbfTable.last, QDbfTable.size]
      simp only [insertLoop, hadd, hrec, hg]
      refine ⟨?_, ?_, ?_, ?_, ?_, ?_, ?_⟩
      · rw [i1]; simp
      · rw [i2]; simp [QDbfTable.last, List.replicate_succ]
      · rw [i3]; rfl
      · rw [i4]; rfl
      · rw [i5]; rfl
      · rw [i6, hsz]
        by_cases hz : grantedCount addOk (i + 1) n = 0
        · simp [hz, QDbfTable.last, QDbfTable.size]
        · simp only [hz, if_false, Nat.succ_ne_zero]
          push_cast; omega
      · rw [i7, hsz, newRecords_succ]
        simp [QDbfTable.last]
    · have hadd : t.addRecord (addOk i) = (false, t) := by
        simp [QDbfTable.addRecord, h]
      have hg : grantedCount addOk i (n + 1) = 0 := by
        simp [grantedCount, h]
      simp only [insertLoop, hadd, hg]
      simp [newRecords]

theorem removeRecord_frame (t : QDbfTable) (ok : Bool) (index : Int) :
    (t.removeRecord ok index).1 = ok ∧
    (t.removeRecord ok index).2.rows.length = t.rows.length ∧
    (t.removeRecord ok index).2.isOpen = t.isOpen ∧
    (t.removeRecord ok index).2.currentPosition = t.currentPosition := by
  cases ok with
  | false => simp [QDbfTable.removeRecord]
  | true =>
    by_cases h : 0 ≤ index
    · simp [QDbfTable.removeRecord, h]
    · simp [QDbfTable.removeRecord, h]

theorem removeLoop_spec (removeOk : Nat → Bool) (records : List QDbfRecord) :
    ∀ (n k : Nat) (i : Int) (t : QDbfTable) (last : Int),
    0 ≤ i → i + n ≤ records.length →
    ∃ t1, removeLoop removeOk records n k i t last
        = some (decide (grantedCount removeOk k n = n), t1,
            if grantedCount removeOk k n = 0 then last
            else i + grantedCount removeOk k n - 1) ∧
      t1.rows.length = t.rows.length ∧ t1.isOpen = t.isOpen ∧
      t1.currentPosition = t.currentPosition := by
  intro n
  induction n with
  | zero => intro k i t last _ _; exact ⟨t, by simp [removeLoop, grantedCount], rfl, rfl, rfl⟩
  | succ n ih =>
    intro k i t last h0 hlen
    have hi : i.toNat < records.length := by
      have e := Int.toNat_of_nonneg h0
      push_cast at hlen
      omega
    have hat : QVector.at records i = some records[i.toNat] := by
      simp [QVector.at, h0, List.getElem?_eq_getElem hi]
    obtain ⟨r1, r2, r3, r4⟩ := removeRecord_frame t (removeOk k) (records[i.toNat]).recordIndex
    by_cases h : removeOk k = true
    · have hg : grantedCount removeOk k (n + 1) = grantedCount removeOk (k + 1) n + 1 := by
        simp [grantedCount, h]
      obtain ⟨t1, e1, e2, e3, e4⟩ := ih (k + 1) (i + 1)
        (t.removeRecord (removeOk k) (records[i.toNat]).recordIndex).2 i (by omega)
        (by push_cast at hlen ⊢; omega)
      refine ⟨t1, ?_, by rw [e2, r2], by rw [e3, r3], by rw [e4, r4]⟩
      have hpair : t.removeRecord (removeOk k) (records[i.toNat]).recordIndex
          = (true, (t.removeRecord (removeOk k) (records[i.toNat]).recordIndex).2) :=
        Prod.ext (r1.trans h) rfl
      simp only [removeLoop, hat]
      rw [hpair]
      simp only [e1, hg]
      by_cases hz : grantedCount removeOk (k + 1) n = 0
      · simp [hz, eq_comm]
      · simp only [hz, if_false, Nat.succ_ne_zero, Option.some.injEq, Prod.mk.injEq,
          true_and]
        refine ⟨by simp, ?_⟩
        push_cast; omega
    · replace h : removeOk k = false := by simpa using h
      have hg : grantedCount removeOk k (n + 1) = 0 := by
        simp [grantedCount, h]
      refine ⟨t, ?_, rfl, rfl, rfl⟩
      simp [removeLoop, hat, QDbfTable.removeRecord, h, hg]

theorem compactLoop_length : ∀ (n : Nat) (i : Int) (records records1 : List QDbfRecord),
    compactLoop n i records = some records1 → records1.length + n = records.length := by
  intro n
  induction n with
  | zero => intro i records records1 h; simp [compactLoop] at h; simp [h]
  | succ n ih =>
    intro i records records1 h
    by_cases hi : 0 ≤ i ∧ i < records.length
    · have e := Int.toNat_of_nonneg hi.1
      have hlt : i.toNat < records.length := by omega
      simp only [compactLoop, QVector.remove, hi, and_self, if_true] at h
      have := ih _ _ _ h
      rw [List.length_eraseIdx] at this
      simp only [hlt, if_true] at this
      omega
    · simp [compactLoop, QVector.remove, hi] at h

/-! ## Effect of the mutators on the counters -/

theorem insertRows_elsewhere (d : QDbfTableModelPrivate) (addOk : Nat → Bool) (row count : Int)
    (h : row ≠ d.m_records.length) : insertRows d addOk row count = (false, d) := by
  simp [insertRows, h]

theorem insertRows_at_end (d : QDbfTableModelPrivate) (addOk : Nat → Bool) (count : Int) :
    (insertRows d addOk d.m_records.length count).1
      = decide (grantedCount addOk 0 count.toNat = count.toNat) ∧
    (insertRows d addOk d.m_records.length count).2.m_dbfTable.rows
      = d.m_dbfTable.rows ++ List.replicate (grantedCount addOk 0 count.toNat)
          (StoredRow.blank d.m_dbfTable.fieldCount) ∧
    (insertRows d addOk d.m_records.length count).2.m_dbfTable.isOpen = d.m_dbfTable.isOpen ∧
    (insertRows d addOk d.m_records.length count).2.m_deletedRecordsCount
      = d.m_deletedRecordsCount ∧
    (insertRows d addOk d.m_records.length count).2.m_lastRecordIndex = d.m_lastRecordIndex ∧
    (insertRows d addOk d.m_records.length count).2.m_records
      = (if (d.m_records.length : Int) + d.m_deletedRecordsCount = d.m_dbfTable.size then
          d.m_records ++ newRecords d.m_dbfTable.fieldCount d.m_dbfTable.size
            (grantedCount addOk 0 count.toNat)
         else d.m_records) := by
  obtain ⟨i1, i2, i3, _, _, _, i7⟩ := insertLoop_spec addOk count.toNat 0 d.m_dbfTable []
  generalize hloop : insertLoop addOk count.toNat 0 d.m_dbfTable [] = res at i1 i2 i3 i7
  obtain ⟨result, t, records⟩ := res
  simp only at i1 i2 i3 i7
  have hsize : t.size = d.m_dbfTable.size + (grantedCount addOk 0 count.toNat : Nat) := by
    simp [QDbfTable.size, i2]
  have hlen : (records.length : Int) = (grantedCount addOk 0 count.toNat : Nat) := by
    rw [i7]; simp [newRecords_length]
  have hshow : ((d.m_records.length : Int) + records.length + d.m_deletedRecordsCount = t.size)
      ↔ ((d.m_records.length : Int) + d.m_deletedRecordsCount = d.m_dbfTable.size) := by
    rw [hsize, hlen]; constructor <;> intro h <;> omega
  have hres : insertRows d addOk d.m_records.length count
      = (result, if (d.m_records.length : Int) + d.m_deletedRecordsCount = d.m_dbfTable.size
          then { d with m_dbfTable := t, m_records := d.m_records ++ records }
          else { d with m_dbfTable := t }) := by
    simp only [insertRows, ne_eq, not_true_eq_false, if_false, hloop]
    by_cases hs : (d.m_records.length : Int) + d.m_deletedRecordsCount = d.m_dbfTable.size
    · rw [if_pos hs, if_pos (by simpa using hshow.2 hs)]
    · rw [if_neg hs, if_neg (by simpa using fun h => hs (hshow.1 h))]
  rw [hres]
  by_cases hs : (d.m_records.length : Int) + d.m_deletedRecordsCount = d.m_dbfTable.size
  · rw [if_pos hs, if_pos hs]
    exact ⟨i1, i2, i3, rfl, rfl, by rw [i7]; simp⟩
  · rw [if_neg hs, if_neg hs]
    exact ⟨i1, i2, i3, rfl, rfl, rfl⟩

theorem removeRows_frame (d : QDbfTableModelPrivate) (removeOk : Nat → Bool) (row count : Int)
    (result : Bool) (d1 : QDbfTableModelPrivate)
    (h : removeRows d removeOk row count = some (result, d1)) :
    (d1.m_records.length : Int) + d1.m_deletedRecordsCount
      = (d.m_records.length : Int) + d.m_deletedRecordsCount ∧
    d.m_deletedRecordsCount ≤ d1.m_deletedRecordsCount ∧
    d1.m_dbfTable.rows.length = d.m_dbfTable.rows.length ∧
    d1.m_dbfTable.isOpen = d.m_dbfTable.isOpen ∧
    d1.m_lastRecordIndex = d.m_lastRecordIndex := by
  unfold removeRows at h
  by_cases hg : row ≥ d.m_records.length ∨ row + count ≤ 0
  · simp only [hg, if_true, Option.some.injEq, Prod.mk.injEq] at h
    obtain ⟨_, rfl⟩ := h
    exact ⟨rfl, le_refl _, rfl, rfl, rfl⟩
  · simp only [hg, if_false] at h
    have hb : (0 : Int) ≤ max 0 row := le_max_left _ _
    have hn : max 0 row + ((min (row + count - 1) ((d.m_records.length : Int) - 1) + 1
        - max 0 row).toNat : Nat) ≤ (d.m_records.length : Int) := by
      rcases le_or_lt (min (row + count - 1) ((d.m_records.length : Int) - 1) + 1 - max 0 row) 0
        with hneg | hpos
      · rw [Int.toNat_eq_zero.2 hneg]
        have : max 0 row ≤ (d.m_records.length : Int) := by
          rcases le_total 0 row with h1 | h1
          · rw [max_eq_right h1]; omega
          · rw [max_eq_left h1]; omega
        simpa using this
      · rw [Int.toNat_of_nonneg (le_of_lt hpos)]
        have := min_le_right (row + count - 1) ((d.m_records.length : Int) - 1)
        omega
    obtain ⟨t1, e1, e2, e3, _⟩ := removeLoop_spec removeOk d.m_records
      (min (row + count - 1) ((d.m_records.length : Int) - 1) + 1 - max 0 row).toNat 0
      (max 0 row) d.m_dbfTable (-1) hb hn
    rw [e1] at h
    simp only at h
    generalize hgc : grantedCount removeOk 0
      (min (row + count - 1) ((d.m_records.length : Int) - 1) + 1 - max 0 row).toNat = g at h
    by_cases hz : g = 0
    · simp only [hz, if_true, gt_iff_lt, lt_self_iff_false, if_false, Option.some.injEq,
        Prod.mk.injEq] at h
      obtain ⟨_, rfl⟩ := h
      exact ⟨rfl, le_refl _, e2, e3, rfl⟩
    · have hlast : max 0 row + (g : Int) - 1 > -1 := by omega
      simp only [hz, if_false, hlast, if_true] at h
      have hcnt : (max 0 row + (g : Int) - 1 + 1 - max 0 row).toNat = g := by
        have : max 0 row + (g : Int) - 1 + 1 - max 0 row = (g : Int) := by ring
        rw [this]; simp
      rw [hcnt] at h
      cases hc : compactLoop g (max 0 row) d.m_records with
      | none => rw [hc] at h; simp at h
      | some records1 =>
        rw [hc] at h
        simp only [Option.some.injEq, Prod.mk.injEq] at h
        obtain ⟨_, rfl⟩ := h
        have := compactLoop_length g _ _ _ hc
        refine ⟨?_, ?_, e2, e3, rfl⟩
        · simp only; omega
        · simp only; omega

theorem setData_frame (d : QDbfTableModelPrivate) (seekOk writeOk : Bool) (index : QModelIndex)
    (value : QVariant) (role : ItemDataRole) (result : Bool) (d1 : QDbfTableModelPrivate)
    (h : setData d seekOk writeOk index value role = some (result, d1)) :
    d1.m_records.length = d.m_records.length ∧
    d1.m_deletedRecordsCount = d.m_deletedRecordsCount ∧
    d1.m_dbfTable.rows.length = d.m_dbfTable.rows.length ∧
    d1.m_dbfTable.isOpen = d.m_dbfTable.isOpen ∧
    d1.m_lastRecordIndex = d.m_lastRecordIndex := by
  unfold setData at h
  by_cases hopen : d.m_dbfTable.isOpen = true
  · simp only [hopen, Bool.not_true, Bool.false_eq_true, if_false] at h
    by_cases hv : (index.isValid && decide (role = ItemDataRole.EditRole)) = true
    · simp only [hv, if_true] at h
      cases hat : QVector.at d.m_records index.row with
      | none => rw [hat] at h; simp at h
      | some r =>
        rw [hat] at h
        cases seekOk with
        | false =>
          simp only [QDbfTable.seek, Bool.false_eq_true, if_false, Option.some.injEq,
            Prod.mk.injEq] at h
          obtain ⟨_, rfl⟩ := h
          exact ⟨rfl, rfl, rfl, rfl, rfl⟩
        | true =>
          cases writeOk with
          | false =>
            simp only [QDbfTable.seek, QDbfTable.setValue, if_true, Bool.false_eq_true,
              if_false, Option.some.injEq, Prod.mk.injEq] at h
            obtain ⟨_, rfl⟩ := h
            exact ⟨rfl, rfl, rfl, hopen ▸ rfl, rfl⟩
          | true =>
            simp only [QDbfTable.seek, QDbfTable.setValue, if_true, Option.some.injEq,
              Prod.mk.injEq] at h
            obtain ⟨_, rfl⟩ := h
            refine ⟨by simp, rfl, ?_, ?_, rfl⟩
            · simp only
              split <;> simp
            · simp only
              split <;> simp
    · simp only [hv, Bool.false_eq_true, if_false, Option.some.injEq, Prod.mk.injEq] at h
      obtain ⟨_, rfl⟩ := h
      exact ⟨rfl, rfl, rfl, rfl, rfl⟩
  · simp only [hopen, Bool.not_false, if_true, Option.some.injEq, Prod.mk.injEq] at h
    · obtain ⟨_, rfl⟩ := h
      exact ⟨rfl, rfl, rfl, rfl, rfl⟩

/-! ## The counting invariant holds in every session state -/

theorem CountInv.of_coupled {d : QDbfTableModelPrivate} (h : Coupled d)
    (hopen : d.m_dbfTable.isOpen = true) : CountInv d := by
  obtain ⟨h1, h2, h3⟩ := h
  exact ⟨hopen, h1, h2, by omega, fun _ => h3⟩

theorem CountInv.coupled {d : QDbfTableModelPrivate} (h : CountInv d)
    (hgap : (d.m_records.length : Int) + d.m_deletedRecordsCount < d.m_dbfTable.size) :
    Coupled d := by
  obtain ⟨_, h1, h2, _, h4⟩ := h
  exact ⟨h1, h2, h4 hgap⟩

theorem CountInv.gap {d : QDbfTableModelPrivate} (h : CountInv d)
    (hcan : canFetchMore d = true) :
    (d.m_records.length : Int) + d.m_deletedRecordsCount < d.m_dbfTable.size := by
  simpa [canFetchMore, h.1] using hcan

theorem CountInv.after_fetchMore (B : Int) {d : QDbfTableModelPrivate} (seekOk : Bool)
    (h : CountInv d) (hcan : canFetchMore d = true) : CountInv (fetchMore B d seekOk) := by
  obtain ⟨f1, _, f3, _⟩ := fetchMore_coupled B d seekOk (h.coupled (h.gap hcan))
  exact CountInv.of_coupled f1 (by rw [f3]; exact h.1)

theorem CountInv.after_open (B : Int) (d0 : QDbfTableModelPrivate) (seekOk readOnly : Bool) :
    CountInv (openModel B d0 true seekOk readOnly).2 := by
  obtain ⟨_, o2, o3, _⟩ := openModel_spec B d0 seekOk readOnly
  exact CountInv.of_coupled o2 o3

theorem CountInv.after_insertRows {d : QDbfTableModelPrivate} (addOk : Nat → Bool) (row count : Int)
    (h : CountInv d) : CountInv (insertRows d addOk row count).2 := by
  by_cases hrow : row = d.m_records.length
  · subst hrow
    obtain ⟨_, i2, i3, i4, i5, i6⟩ := insertRows_at_end d addOk count
    obtain ⟨h0, h1, h2, h3, h4⟩ := h
    generalize insertRows d addOk d.m_records.length count = res at i2 i3 i4 i5 i6
    have hsize : res.2.m_dbfTable.size
        = d.m_dbfTable.size + (grantedCount addOk 0 count.toNat : Nat) := by
      simp [QDbfTable.size, i2]
    refine ⟨by rw [i3]; exact h0, by rw [i5]; exact h1, by rw [i5, hsize]; omega, ?_, ?_⟩
    · rw [i4, i6, hsize]
      by_cases hs : (d.m_records.length : Int) + d.m_deletedRecordsCount = d.m_dbfTable.size
      · rw [if_pos hs]; simp only [List.length_append, newRecords_length]; push_cast; omega
      · rw [if_neg hs]; omega
    · rw [i4, i5, i6, hsize]
      by_cases hs : (d.m_records.length : Int) + d.m_deletedRecordsCount = d.m_dbfTable.size
      · rw [if_pos hs]; simp only [List.length_append, newRecords_length]; push_cast
        intro hlt; omega
      · rw [if_neg hs]
        intro _
        exact h4 (by omega)
  · rw [insertRows_elsewhere d addOk row count hrow]
    exact h

theorem CountInv.of_frame {d d1 : QDbfTableModelPrivate} (h : CountInv d)
    (hsum : (d1.m_records.length : Int) + d1.m_deletedRecordsCount
      = (d.m_records.length : Int) + d.m_deletedRecordsCount)
    (hrows : d1.m_dbfTable.rows.length = d.m_dbfTable.rows.length)
    (hopen : d1.m_dbfTable.isOpen = d.m_dbfTable.isOpen)
    (hlast : d1.m_lastRecordIndex = d.m_lastRecordIndex) : CountInv d1 := by
  obtain ⟨h0, h1, h2, h3, h4⟩ := h
  have hsize : d1.m_dbfTable.size = d.m_dbfTable.size := by simp [QDbfTable.size, hrows]
  refine ⟨by rw [hopen]; exact h0, by rw [hlast]; exact h1, by rw [hlast, hsize]; exact h2,
    by rw [hsum, hsize]; exact h3, ?_⟩
  rw [hsum, hsize, hlast]
  exact h4

theorem QDbfTableModel.Reachable.countInv {B : Int} {d : QDbfTableModelPrivate} (h : Reachable B d) :
    CountInv d := by
  induction h with
  | opened d0 seekOk readOnly => exact CountInv.after_open B d0 seekOk readOnly
  | loadMore d seekOk _ hcan ih => exact ih.after_fetchMore B seekOk hcan
  | insertRows d addOk row count _ ih => exact ih.after_insertRows addOk row count
  | removeRows d removeOk row count result d1 _ hstep ih =>
    obtain ⟨r1, _, r3, r4, r5⟩ := removeRows_frame d removeOk row count result d1 hstep
    exact ih.of_frame r1 r3 r4 r5
  | setData d seekOk writeOk index value role result d1 _ hstep ih =>
    obtain ⟨s1, s2, s3, s4, s5⟩ := setData_frame d seekOk writeOk index value role result d1 hstep
    exact ih.of_frame (by rw [s1, s2]) s3 s4 s5

/-- C4: in every state reachable from a successful open by `fetchMore` (called
while `canFetchMore` holds), `insertRows`, `removeRows` and `setData`,
`rowCount + deletedCount` is at most the store's physical count, with equality
whenever `canFetchMore` is false. -/
theorem reachable_count_le_physical (B : Int) (d : QDbfTableModelPrivate)
    (h : Reachable B d) :
    rowCount d + d.m_deletedRecordsCount ≤ d.m_dbfTable.size ∧
    (canFetchMore d = false → rowCount d + d.m_deletedRecordsCount = d.m_dbfTable.size) := by
  obtain ⟨h0, _, _, h3, _⟩ := h.countInv
  refine ⟨h3, fun hcan => ?_⟩
  have := (canFetchMore_eq_false_iff d h0).1 hcan
  unfold rowCount at *
  omega

theorem gapSession_reachable : Reachable 2 gapSession :=
  Reachable.opened _ true false

/-- Witness for C4: the partially loaded session opened with batch size 2 over
five rows. -/
theorem reachable_count_le_physical_witness :
    Reachable 2 gapSession ∧
    rowCount gapSession + gapSession.m_deletedRecordsCount ≤ gapSession.m_dbfTable.size ∧
    (canFetchMore gapSession = false →
      rowCount gapSession + gapSession.m_deletedRecordsCount = gapSession.m_dbfTable.size) :=
  ⟨gapSession_reachable, reachable_count_le_physical 2 gapSession gapSession_reachable⟩

/-! ## `removeRows` on concrete sessions -/

/-- A call whose clamped range is empty changes nothing and returns true unless
the entry guard `row >= size || row + count <= 0` catches it. -/
theorem removeRows_empty_range (d : QDbfTableModelPrivate) (removeOk : Nat → Bool)
    (row count : Int)
    (hempty : min (row + count - 1) ((d.m_records.length : Int) - 1) < max 0 row) :
    removeRows d removeOk row count
      = some (!decide (row ≥ d.m_records.length ∨ row + count ≤ 0), d) := by
  unfold removeRows
  by_cases hg : row ≥ d.m_records.length ∨ row + count ≤ 0
  · simp [hg]
  · have hn : (min (row + count - 1) ((d.m_records.length : Int) - 1) + 1 - max 0 row).toNat = 0 :=
      Int.toNat_eq_zero.2 (by omega)
    simp only [hg, if_false, hn, removeLoop]
    simp

/-- C2, the code at the failing input: `removeRows(0, 2)` on four loaded rows with
every store request granted.  The store marks the physical records 0 and 1; the
compaction loop removes the cached rows of physical index 0 and 2, so the cache
keeps the deleted record 1 and loses the live record 2. -/
theorem removeRows_first_two_of_four :
    removeRows fourRows allGranted 0 2 = some (true, afterRemoveTwo) ∧
    fourRows.m_records.map (fun r => r.recordIndex) = [0, 1, 2, 3] ∧
    afterRemoveTwo.m_dbfTable.rows.map (fun r => r.deleted) = [true, true, false, false] ∧
    afterRemoveTwo.m_records.map (fun r => r.recordIndex) = [1, 3] ∧
    afterRemoveTwo.m_deletedRecordsCount = fourRows.m_deletedRecordsCount + 2 ∧
    afterRemoveTwo.m_records ≠ fourRows.m_records.take 0 ++ fourRows.m_records.drop 2 := by
  refine ⟨rfl, by decide, by decide, by decide, by decide, by decide⟩

/-- C3, a reachable state violating the claim: after `removeRows(0, 2)` on four
loaded rows the cache holds the record of physical index 1, which the store has
marked deleted. -/
theorem reachable_cache_holds_deleted_record :
    Reachable DBF_PREFETCH afterRemoveTwo ∧
    ∃ r, r ∈ afterRemoveTwo.m_records ∧ r.recordIndex = 1 ∧
      afterRemoveTwo.m_dbfTable.isMarkedDeleted r.recordIndex = true := by
  refine ⟨?_, ?_⟩
  · exact Reachable.removeRows fourRows allGranted 0 2 true afterRemoveTwo
      (Reachable.opened _ true false) rfl
  · exact ⟨{ recordIndex := 1, isDeleted := false, values := [QVariant.number 11] },
      by decide, rfl, by decide⟩

/-- C9, the code at the failing input: `removeRows(2, 2)` on four loaded rows with
every store request granted.  The store marks both rows (`lastRemovedRow = 3`),
the compaction loop removes index 2 and then calls `remove(3)` on the three
remaining rows: the call has no defined result, in particular no state with
`rowCount() = 2`. -/
theorem removeRows_last_two_of_four :
    (∃ t, removeLoop allGranted fourRows.m_records 2 0 2 fourRows.m_dbfTable (-1)
        = some (true, t, 3) ∧
      t.rows.map (fun r => r.deleted) = [false, false, true, true]) ∧
    (∃ records1, QVector.remove fourRows.m_records 2 = some records1 ∧
      records1.length = 3 ∧ QVector.remove records1 3 = none) ∧
    compactLoop 2 2 fourRows.m_records = none ∧
    removeRows fourRows allGranted 2 2 = none := by
  refine ⟨⟨_, rfl, by decide⟩, ⟨_, rfl, by decide, by decide⟩, by decide, by decide⟩

/-- C10, the code at the failing input: with `0 < row < rowCount()` and
`count <= 0` the clamped range is empty, yet `removeRows` returns true (cache
and store unchanged); with `row = 0` the same empty request returns false. -/
theorem removeRows_empty_range_returns_true :
    removeRows fourRows allGranted 1 0 = some (true, fourRows) ∧
    removeRows fourRows allGranted 2 (-1) = some (true, fourRows) ∧
    removeRows fourRows allGranted 0 0 = some (false, fourRows) := by
  refine ⟨by decide, by decide, by decide⟩

/-! ## Inserting at the end -/

theorem visibleFrom_replicate_blank (fc : Nat) : ∀ (n pos : Nat),
    visibleFrom pos (List.replicate n (StoredRow.blank fc)) = newRecords fc pos n := by
  intro n
  induction n with
  | zero => intro pos; simp [visibleFrom, newRecords]
  | succ n ih =>
    intro pos
    rw [List.replicate_succ, newRecords_succ]
    simp only [visibleFrom, StoredRow.blank, Bool.false_eq_true, if_false]
    have := ih (pos + 1)
    simp only [StoredRow.blank] at this
    rw [this]
    simp [newRecords, StoredRow.blank]

theorem pendingRecords_append_blank (d d1 : QDbfTableModelPrivate) (n : Nat)
    (hc : Coupled d)
    (hrows : d1.m_dbfTable.rows
      = d.m_dbfTable.rows ++ List.replicate n (StoredRow.blank d.m_dbfTable.fieldCount))
    (hlast : d1.m_lastRecordIndex = d.m_lastRecordIndex) :
    pendingRecords d1
      = pendingRecords d ++ newRecords d.m_dbfTable.fieldCount d.m_dbfTable.size n := by
  obtain ⟨_, hle⟩ := hc.cursor
  simp only [pendingRecords, hrows, hlast]
  rw [List.drop_append_of_le_length hle, visibleFrom_append, visibleFrom_replicate_blank]
  congr 2
  simp only [List.length_drop, QDbfTable.size]
  omega

/-- C5: `insertRows` at the end with all `n` store appends granted, in a session
state.  The store gains `n` fresh records.  If `canFetchMore` was false, the
cache grows by exactly these `n` records, in order, at its end.  If
`canFetchMore` was true, the cache is unchanged by the call, and repeating
`fetchMore` until `canFetchMore` is false ends with the `n` new records as the
last rows of the cache. -/
theorem insertRows_all_granted (B : Int) (d : QDbfTableModelPrivate) (h : Reachable B d)
    (n : Nat) (addOk : Nat → Bool) (hall : ∀ i, i < n → addOk i = true) :
    (insertRows d addOk (rowCount d) n).1 = true ∧
    (insertRows d addOk (rowCount d) n).2.m_dbfTable.rows
      = d.m_dbfTable.rows ++ List.replicate n (StoredRow.blank d.m_dbfTable.fieldCount) ∧
    (canFetchMore d = false →
      rowCount (insertRows d addOk (rowCount d) n).2 = rowCount d + n ∧
      (insertRows d addOk (rowCount d) n).2.m_records
        = d.m_records ++ newRecords d.m_dbfTable.fieldCount d.m_dbfTable.size n) ∧
    (canFetchMore d = true →
      (insertRows d addOk (rowCount d) n).2.m_records = d.m_records ∧
      canFetchMore (loadAll B (d.m_dbfTable.rows.length + n)
        (insertRows d addOk (rowCount d) n).2) = false ∧
      (loadAll B (d.m_dbfTable.rows.length + n)
          (insertRows d addOk (rowCount d) n).2).m_records
        = (d.m_records ++ pendingRecords d)
            ++ newRecords d.m_dbfTable.fieldCount d.m_dbfTable.size n) := by
  have hinv := h.countInv
  have hg : grantedCount addOk 0 ((n : Int).toNat) = n := by
    rw [Int.toNat_ofNat]
    exact grantedCount_all addOk n 0 (fun j _ hj => hall j (by omega))
  obtain ⟨i1, i2, i3, i4, i5, i6⟩ := insertRows_at_end d addOk (n : Int)
  rw [hg] at i2 i6
  rw [hg, Int.toNat_ofNat] at i1
  unfold rowCount
  generalize insertRows d addOk (d.m_records.length : Int) (n : Int) = res at i1 i2 i3 i4 i5 i6
  obtain ⟨h0, h1, h2, h3, h4⟩ := hinv
  refine ⟨by simpa using i1, i2, ?_, ?_⟩
  · intro hcan
    have hdone := (canFetchMore_eq_false_iff d h0).1 hcan
    have hs : (d.m_records.length : Int) + d.m_deletedRecordsCount = d.m_dbfTable.size := by
      omega
    rw [if_pos hs] at i6
    rw [i6]
    exact ⟨by simp [newRecords_length], rfl⟩
  · intro hcan
    have hgap : (d.m_records.length : Int) + d.m_deletedRecordsCount < d.m_dbfTable.size := by
      simpa [canFetchMore, h0] using hcan
    have hs : ¬ ((d.m_records.length : Int) + d.m_deletedRecordsCount = d.m_dbfTable.size) := by
      omega
    rw [if_neg hs] at i6
    have hc : Coupled d := ⟨h1, h2, h4 hgap⟩
    have hsize : res.2.m_dbfTable.size = d.m_dbfTable.size + (n : Int) := by
      simp [QDbfTable.size, i2]
    have hc1 : Coupled res.2 := by
      refine ⟨by rw [i5]; exact h1, by rw [i5, hsize]; omega, ?_⟩
      rw [i6, i4, i5]
      exact h4 hgap
    have hfuel : res.2.m_dbfTable.size
        - ((res.2.m_records.length : Int) + res.2.m_deletedRecordsCount)
        ≤ ((d.m_dbfTable.rows.length + n : Nat) : Int) := by
      rw [hsize, i6, i4]
      unfold QDbfTable.size at h2 hgap ⊢
      push_cast
      omega
    obtain ⟨l1, _, _, _, l5, _⟩ := loadAll_coupled B (d.m_dbfTable.rows.length + n) res.2 hc1
      (by rw [i3]; exact h0) hfuel
    refine ⟨i6, l1, ?_⟩
    rw [l5, i6, pendingRecords_append_blank d res.2 n hc i2 i5, List.append_assoc]

/-- Witness for C5: two appends granted in the partially loaded session
`gapSession`. -/
theorem insertRows_all_granted_witness :
    (insertRows gapSession allGranted (rowCount gapSession) (2 : Nat)).1 = true ∧
    (insertRows gapSession allGranted (rowCount gapSession) (2 : Nat)).2.m_dbfTable.rows
      = gapSession.m_dbfTable.rows
          ++ List.replicate 2 (StoredRow.blank gapSession.m_dbfTable.fieldCount) ∧
    (canFetchMore gapSession = false →
      rowCount (insertRows gapSession allGranted (rowCount gapSession) (2 : Nat)).2
        = rowCount gapSession + (2 : Nat) ∧
      (insertRows gapSession allGranted (rowCount gapSession) (2 : Nat)).2.m_records
        = gapSession.m_records
            ++ newRecords gapSession.m_dbfTable.fieldCount gapSession.m_dbfTable.size 2) ∧
    (canFetchMore gapSession = true →
      (insertRows gapSession allGranted (rowCount gapSession) (2 : Nat)).2.m_records
        = gapSession.m_records ∧
      canFetchMore (loadAll 2 (gapSession.m_dbfTable.rows.length + 2)
        (insertRows gapSession allGranted (rowCount gapSession) (2 : Nat)).2) = false ∧
      (loadAll 2 (gapSession.m_dbfTable.rows.length + 2)
          (insertRows gapSession allGranted (rowCount gapSession) (2 : Nat)).2).m_records
        = (gapSession.m_records ++ pendingRecords gapSession)
            ++ newRecords gapSession.m_dbfTable.fieldCount gapSession.m_dbfTable.size 2) :=
  insertRows_all_granted 2 gapSession gapSession_reachable 2 allGranted (fun _ _ => rfl)

/-! ## Editing a cell -/

theorem QVector.at_of_lt {α : Type} (v : List α) (i : Int) (h0 : 0 ≤ i)
    (hlt : i < (v.length : Int)) :
    ∃ x, QVector.at v i = some x ∧ x ∈ v ∧ v[i.toNat]? = some x := by
  have e := Int.toNat_of_nonneg h0
  have hi : i.toNat < v.length := by omega
  refine ⟨v[i.toNat], ?_, List.getElem_mem _, List.getElem?_eq_getElem hi⟩
  simp [QVector.at, h0, List.getElem?_eq_getElem hi]

theorem QDbfRecord.value_setValue (r : QDbfRecord) (column : Int) (value : QVariant)
    (h0 : 0 ≤ column) (hlt : column < r.count) :
    (r.setValue column value).value column = value := by
  have e := Int.toNat_of_nonneg h0
  have hi : column.toNat < r.values.length := by
    unfold QDbfRecord.count at hlt; omega
  simp [QDbfRecord.setValue, QDbfRecord.value, h0, List.getElem?_set_self hi]

/-- The outcome of `setData` on an open store for a valid index whose row is cached. -/
theorem setData_eq (d : QDbfTableModelPrivate) (seekOk writeOk : Bool) (index : QModelIndex)
    (value : QVariant) (r : QDbfRecord) (hopen : d.m_dbfTable.isOpen = true)
    (hvalid : index.isValid = true) (hat : QVector.at d.m_records index.row = some r) :
    ∃ t, setData d seekOk writeOk index value ItemDataRole.EditRole
      = some (seekOk && writeOk,
          if (seekOk && writeOk) = true then
            { d with m_dbfTable := t
                     m_records := d.m_records.modify (fun x => x.setValue index.column value)
                                    index.row.toNat }
          else { d with m_dbfTable := t }) ∧
      ((seekOk && writeOk) = false → t.rows = d.m_dbfTable.rows) := by
  cases seekOk with
  | false =>
    exact ⟨d.m_dbfTable, by simp [setData, hopen, hvalid, hat, QDbfTable.seek], fun _ => rfl⟩
  | true =>
    cases writeOk with
    | false =>
      exact ⟨{ d.m_dbfTable with currentPosition := r.recordIndex },
        by simp [setData, hopen, hvalid, hat, QDbfTable.seek, QDbfTable.setValue], fun _ => rfl⟩
    | true =>
      exact ⟨_, by simp [setData, hopen, hvalid, hat, QDbfTable.seek, QDbfTable.setValue]; rfl,
        fun h0 => by cases h0⟩

/-- C6 (as amended): on an open session, for an in-range cell of a cache whose
records have the schema's fields, `setData` returns true exactly when the store
granted both the seek and the write.  In that case the cached cell holds the
new value and `data` returns it (through the role switch); otherwise the cache
is unchanged and `data` returns what it returned before.  So the cell holds `v`
after the call exactly when the write was done or the cell already held `v`. -/
theorem setData_then_data (d : QDbfTableModelPrivate) (seekOk writeOk : Bool)
    (index : QModelIndex) (value : QVariant) (role : ItemDataRole)
    (hopen : d.m_dbfTable.isOpen = true)
    (hrow : 0 ≤ index.row ∧ index.row < rowCount d)
    (hcol : 0 ≤ index.column ∧ index.column < columnCount d)
    (hschema : ∀ r, r ∈ d.m_records → r.count = columnCount d) :
    ∃ d1, setData d seekOk writeOk index value ItemDataRole.EditRole
        = some (seekOk && writeOk, d1) ∧
      ((seekOk && writeOk) = true →
        cellValue d1 index = value ∧ data d1 index role = presentValue role value) ∧
      ((seekOk && writeOk) = false →
        d1.m_records = d.m_records ∧ d1.m_dbfTable.rows = d.m_dbfTable.rows ∧
        cellValue d1 index = cellValue d index ∧ data d1 index role = data d index role) ∧
      (cellValue d1 index = value ↔
        ((seekOk && writeOk) = true ∨ cellValue d index = value)) := by
  obtain ⟨r, hat, hmem, hget⟩ := QVector.at_of_lt d.m_records index.row hrow.1 hrow.2
  have hvalid : index.isValid = true := by simp [QModelIndex.isValid, hrow.1, hcol.1]
  obtain ⟨t, hset, hrows⟩ := setData_eq d seekOk writeOk index value r hopen hvalid hat
  refine ⟨_, hset, ?_⟩
  by_cases hok : (seekOk && writeOk) = true
  · rw [if_pos hok]
    have hcell : cellValue
        { d with m_dbfTable := t
                 m_records := d.m_records.modify (fun x => x.setValue index.column value)
                                index.row.toNat } index = value := by
      simp only [cellValue, QVector.at, hrow.1, if_true, List.getElem?_modify_eq, hget,
        Option.map_eq_map, Option.map_some']
      exact QDbfRecord.value_setValue r index.column value hcol.1
        (by rw [hschema r hmem]; exact hcol.2)
    refine ⟨fun _ => ⟨hcell, ?_⟩, (fun h0 => by rw [hok] at h0; cases h0),
      ⟨fun _ => Or.inl hok, fun _ => hcell⟩⟩
    have hr : ¬ (index.row ≥ rowCount d ∨ index.column ≥ columnCount d) := by
      intro h; rcases h with h | h <;> omega
    unfold data
    simp only [hvalid, Bool.not_true, Bool.false_eq_true, if_false]
    have hr1 : ¬ (index.row ≥ rowCount
        { d with m_dbfTable := t
                 m_records := d.m_records.modify (fun x => x.setValue index.column value)
                                index.row.toNat } ∨
        index.column ≥ columnCount
        { d with m_dbfTable := t
                 m_records := d.m_records.modify (fun x => x.setValue index.column value)
                                index.row.toNat }) := by
      simpa [rowCount, columnCount] using hr
    rw [if_neg hr1, hcell]
  · replace hok : (seekOk && writeOk) = false := by simpa using hok
    rw [if_neg (by simp [hok])]
    refine ⟨(fun h0 => by rw [hok] at h0; cases h0), fun _ => ⟨rfl, hrows hok, rfl, rfl⟩, ?_⟩
    have : cellValue { d with m_dbfTable := t } index = cellValue d index := rfl
    rw [this]
    constructor
    · intro h; exact Or.inr h
    · intro h
      rcases h with h | h
      · rw [hok] at h; cases h
      · exact h

/-- Witness for C6: writing 99 into cell (0, 0) of the four loaded rows. -/
theorem setData_then_data_witness :
    ∃ d1, setData fourRows true true { row := 0, column := 0 } (QVariant.number 99)
        ItemDataRole.EditRole = some (true && true, d1) ∧
      ((true && true) = true →
        cellValue d1 { row := 0, column := 0 } = QVariant.number 99 ∧
        data d1 { row := 0, column := 0 } ItemDataRole.EditRole
          = presentValue ItemDataRole.EditRole (QVariant.number 99)) ∧
      ((true && true) = false →
        d1.m_records = fourRows.m_records ∧ d1.m_dbfTable.rows = fourRows.m_dbfTable.rows ∧
        cellValue d1 { row := 0, column := 0 } = cellValue fourRows { row := 0, column := 0 } ∧
        data d1 { row := 0, column := 0 } ItemDataRole.EditRole
          = data fourRows { row := 0, column := 0 } ItemDataRole.EditRole) ∧
      (cellValue d1 { row := 0, column := 0 } = QVariant.number 99 ↔
        ((true && true) = true ∨
          cellValue fourRows { row := 0, column := 0 } = QVariant.number 99)) :=
  setData_then_data fourRows true true { row := 0, column := 0 } (QVariant.number 99)
    ItemDataRole.EditRole (by decide) (by decide) (by decide) (by decide)

/-- C6, the claim as stated fails: the store refuses the write of the value the
cell already holds; `data` returns that value after the call although no write
succeeded. -/
theorem setData_refused_write_same_value :
    setData fourRows true false { row := 0, column := 0 } (QVariant.number 10)
        ItemDataRole.EditRole
      = some (false, { fourRows with
          m_dbfTable := { fourRows.m_dbfTable with currentPosition := 0 } }) ∧
    data { fourRows with m_dbfTable := { fourRows.m_dbfTable with currentPosition := 0 } }
        { row := 0, column := 0 } ItemDataRole.EditRole = QVariant.number 10 ∧
    ¬ (data { fourRows with m_dbfTable := { fourRows.m_dbfTable with currentPosition := 0 } }
          { row := 0, column := 0 } ItemDataRole.EditRole = QVariant.number 10
        ↔ (true && false) = true) := by
  refine ⟨by decide, by decide, by decide⟩

/-! ## Read-only and closed sessions -/

theorem take_min_of_length_le {α : Type} (l : List α) (size B : Int)
    (hlen : (l.length : Int) ≤ size) : l.take (min size B).toNat = l.take B.toNat := by
  rcases le_total size B with h | h
  · rw [min_eq_left h]
    have e1 : l.length ≤ size.toNat := by
      have := Int.toNat_of_nonneg (show 0 ≤ size by omega); omega
    have e2 : l.length ≤ B.toNat := by
      have := Int.toNat_of_nonneg (show 0 ≤ B by omega); omega
    rw [List.take_of_length_le e1, List.take_of_length_le e2]
  · rw [min_eq_right h]

/-- C8 (as amended): `close` empties the cache.  A following successful `open`
fetches the first batch itself whenever the fresh physical count is positive:
afterwards the cache is empty only if the file is empty, the seek was refused
or the batch met no live record; with the seek granted (batch size at least 1)
the cache holds the first `B` non-deleted records.  After the open
`canFetchMore` is true exactly when `rowCount + deletedCount` is still below the
physical count: never for an empty file, always for a non-empty file when the
seek was refused, and never, with the seek granted, for a file of at most `B`
records. -/
theorem close_then_open (B : Int) (d : QDbfTableModelPrivate) (seekOk readOnly : Bool) :
    rowCount (close d) = 0 ∧ canFetchMore (close d) = false ∧
    (openModel B (close d) true seekOk readOnly).1 = true ∧
    (d.m_dbfTable.rows = [] →
      rowCount (openModel B (close d) true seekOk readOnly).2 = 0 ∧
      canFetchMore (openModel B (close d) true seekOk readOnly).2 = false) ∧
    (d.m_dbfTable.rows ≠ [] →
      (openModel B (close d) true seekOk readOnly).2
        = fetchMore B (openedEmpty (close d) readOnly) seekOk) ∧
    (d.m_dbfTable.rows ≠ [] → seekOk = false →
      rowCount (openModel B (close d) true seekOk readOnly).2 = 0 ∧
      canFetchMore (openModel B (close d) true seekOk readOnly).2 = true) ∧
    (d.m_dbfTable.rows ≠ [] → seekOk = true → 1 ≤ B →
      (openModel B (close d) true seekOk readOnly).2.m_records
        = (visibleRecords d.m_dbfTable.rows).take B.toNat ∧
      (d.m_dbfTable.size ≤ B →
        canFetchMore (openModel B (close d) true seekOk readOnly).2 = false)) ∧
    (canFetchMore (openModel B (close d) true seekOk readOnly).2 = true ↔
      rowCount (openModel B (close d) true seekOk readOnly).2
        + (openModel B (close d) true seekOk readOnly).2.m_deletedRecordsCount
        < d.m_dbfTable.size) := by
  have hcan0 : canFetchMore (openedEmpty (close d) readOnly)
      = decide (0 < d.m_dbfTable.rows.length) := by
    simp [canFetchMore, openedEmpty, close, QDbfTable.close, QDbfTable.size]
  have hc := openedEmpty_coupled (close d) readOnly
  have hp : pendingRecords (openedEmpty (close d) readOnly)
      = visibleFrom 0 d.m_dbfTable.rows := openedEmpty_pending (close d) readOnly
  obtain ⟨o1, o2, o3, o4, _, _⟩ := openModel_spec B (close d) seekOk readOnly
  have hrows : (openModel B (close d) true seekOk readOnly).2.m_dbfTable.rows
      = d.m_dbfTable.rows := o4
  have hsize : (openModel B (close d) true seekOk readOnly).2.m_dbfTable.size
      = d.m_dbfTable.size := by simp [QDbfTable.size, hrows]
  have hne : d.m_dbfTable.rows ≠ [] →
      (openModel B (close d) true seekOk readOnly).2
        = fetchMore B (openedEmpty (close d) readOnly) seekOk := by
    intro h
    rw [openModel_eq, hcan0]
    have : 0 < d.m_dbfTable.rows.length := List.length_pos.2 h
    simp [this]
  refine ⟨rfl, by simp [canFetchMore, close, QDbfTable.close], o1, ?_, hne, ?_, ?_, ?_⟩
  · intro hnil
    rw [openModel_eq, hcan0]
    simp [hnil, rowCount, canFetchMore, openedEmpty, close, QDbfTable.close, QDbfTable.size]
  · intro h hseek
    rw [hne h, hseek, fetchMore_refused, hcan0]
    have : 0 < d.m_dbfTable.rows.length := List.length_pos.2 h
    exact ⟨rfl, by simp [this]⟩
  · intro h hseek hB
    have hpos : 0 < d.m_dbfTable.rows.length := List.length_pos.2 h
    rw [hne h, hseek]
    have e1 : (openedEmpty (close d) readOnly).m_dbfTable.size = d.m_dbfTable.size := rfl
    have e2 : ((openedEmpty (close d) readOnly).m_records.length : Int) = 0 := rfl
    have e3 : (openedEmpty (close d) readOnly).m_deletedRecordsCount = 0 := rfl
    have e4 : (openedEmpty (close d) readOnly).m_records = [] := rfl
    have hsz : d.m_dbfTable.size = (d.m_dbfTable.rows.length : Int) := rfl
    constructor
    · have ht := fetchMore_take B (openedEmpty (close d) readOnly) hc
        (by rw [e1, e2, e3]; simp only [sub_zero]; exact lt_min (by omega) (by omega))
      rw [ht, e1, e2, e3, e4, hp, visibleRecords_eq]
      simp only [sub_zero, List.nil_append]
      exact take_min_of_length_le _ _ _
        (by have := visibleFrom_length_le d.m_dbfTable.rows 0; omega)
    · intro hle
      obtain ⟨f1, f2, f3, _, _, f6, f7, _⟩ :=
        fetchMore_coupled B (openedEmpty (close d) readOnly) true hc
      have hopen : (fetchMore B (openedEmpty (close d) readOnly) true).m_dbfTable.isOpen
          = true := by rw [f3]; rfl
      have hs : (fetchMore B (openedEmpty (close d) readOnly) true).m_dbfTable.size
          = d.m_dbfTable.size := congrArg (fun l => (List.length l : Int)) f2
      rw [canFetchMore_eq_false_iff _ hopen, hs]
      obtain ⟨_, _, c3⟩ := f1
      rw [e1, e2, e3] at f7
      rw [e3] at f6
      rcases f7 rfl with h7 | h7
      · omega
      · simp only [sub_zero, zero_add] at h7
        rw [min_eq_left hle] at h7
        omega
  · unfold rowCount
    rw [← hsize]
    simp [canFetchMore, o3]

/-- C8, the claim as stated fails: re-opening a file of four live rows loads them
at once, without any `fetchMore` call by the consumer, and `canFetchMore` is
false although the physical count is 4. -/
theorem close_then_open_loads_first_batch :
    rowCount (close fourRows) = 0 ∧
    (openModel DBF_PREFETCH (close fourRows) true true false).1 = true ∧
    rowCount (openModel DBF_PREFETCH (close fourRows) true true false).2 = 4 ∧
    (openModel DBF_PREFETCH (close fourRows) true true false).2.m_dbfTable.size = 4 ∧
    canFetchMore (openModel DBF_PREFETCH (close fourRows) true true false).2 = false := by
  refine ⟨by decide, by decide, by decide, by decide, by decide⟩

/-- Witness for C8: closing and re-opening the four-row session with batch size 2. -/
theorem close_then_open_witness :
    (openModel 2 (close fourRows) true true false).2.m_records
        = (visibleRecords fourRows.m_dbfTable.rows).take (2 : Int).toNat ∧
    (canFetchMore (openModel 2 (close fourRows) true true false).2 = true ↔
      rowCount (openModel 2 (close fourRows) true true false).2
        + (openModel 2 (close fourRows) true true false).2.m_deletedRecordsCount
        < fourRows.m_dbfTable.size) :=
  ⟨((close_then_open 2 fourRows true false).2.2.2.2.2.2.1 (by decide) rfl (by decide)).1,
   (close_then_open 2 fourRows true false).2.2.2.2.2.2.2⟩

/-! ## A refused seek, an exhausted session, the store cursor -/

/-- C11: a fetch batch whose seek to the resume cursor is refused changes nothing:
the cached rows, the deleted count and the resume cursor are the same after the
call, and so is `canFetchMore`. -/
theorem fetchMore_seek_refused (B : Int) (d : QDbfTableModelPrivate) :
    fetchMore B d false = d ∧
    (fetchMore B d false).m_records = d.m_records ∧
    (fetchMore B d false).m_deletedRecordsCount = d.m_deletedRecordsCount ∧
    (fetchMore B d false).m_lastRecordIndex = d.m_lastRecordIndex ∧
    canFetchMore (fetchMore B d false) = canFetchMore d := by
  rw [fetchMore_refused]
  exact ⟨rfl, rfl, rfl, rfl, rfl⟩

/-- With the resume cursor in step with the counters, a fetch batch on a session
without a gap reads nothing. -/
theorem fetchMore_exhausted_coupled (B : Int) (d : QDbfTableModelPrivate) (seekOk : Bool)
    (hc : Coupled d)
    (hdone : d.m_dbfTable.size ≤ (d.m_records.length : Int) + d.m_deletedRecordsCount) :
    (fetchMore B d seekOk).m_records = d.m_records ∧
    (fetchMore B d seekOk).m_deletedRecordsCount = d.m_deletedRecordsCount ∧
    (fetchMore B d seekOk).m_lastRecordIndex = d.m_lastRecordIndex := by
  cases seekOk with
  | false => rw [fetchMore_refused]; exact ⟨rfl, rfl, rfl⟩
  | true =>
    obtain ⟨hc1, hc2⟩ := hc.cursor
    obtain ⟨h1, h2, h3⟩ := hc
    have hp : (d.m_lastRecordIndex + 1).toNat = d.m_dbfTable.rows.length := by
      have e := Int.toNat_of_nonneg (show 0 ≤ d.m_lastRecordIndex + 1 by omega)
      unfold QDbfTable.size at h2 hdone
      omega
    rw [fetchMore_granted B d _ hc1 hc2, hp]
    simp only [List.drop_length, scanRows, Nat.add_zero, List.append_nil, Nat.cast_zero,
      add_zero, true_and]
    unfold QDbfTable.size at h2 hdone
    omega

/-- C12, the code at the failing input: one live row loaded, one row inserted at
the end and mirrored into the cache (physical indices 0 and 1 cached, resume
cursor still 0).  `want` is 0 and `canFetchMore` is false, yet `fetchMore` has no
guard on `want`: it seeks to the stale cursor, scans the inserted row and appends
it a second time. -/
theorem fetchMore_exhausted_appends_again :
    Reachable DBF_PREFETCH staleSession ∧
    canFetchMore staleSession = false ∧
    want DBF_PREFETCH staleSession = 0 ∧
    staleSession.m_lastRecordIndex = 0 ∧
    cachedIndices staleSession = [0, 1] ∧
    cachedIndices (fetchMore DBF_PREFETCH staleSession true) = [0, 1, 1] ∧
    (fetchMore DBF_PREFETCH staleSession true).m_records ≠ staleSession.m_records := by
  refine ⟨?_, by decide, by decide, by decide, by decide, by decide, by decide⟩
  exact Reachable.insertRows _ allGranted 1 1 (Reachable.opened _ true false)

theorem fetchMore_withCursor (B : Int) (d : QDbfTableModelPrivate) (c : Int) :
    fetchMore B (withCursor d c) true = fetchMore B d true := rfl

/-- C17: the result of a fetch batch does not depend on where the store cursor
was left.  Two sessions that differ only in the store cursor give the same
state after a granted fetch, and the same cache, deleted count and resume
cursor after a refused one.  In particular after a successful `setData` (which
leaves the cursor on the edited record) and after `insertRows` (which leaves it
on the last record) the fetch is the fetch started from the model's resume
cursor, which both calls leave untouched. -/
theorem fetchMore_cursor_independent (B : Int) (d : QDbfTableModelPrivate) (c : Int)
    (seekOk : Bool) :
    fetchMore B (withCursor d c) true = fetchMore B d true ∧
    (fetchMore B (withCursor d c) seekOk).m_records = (fetchMore B d seekOk).m_records ∧
    (fetchMore B (withCursor d c) seekOk).m_deletedRecordsCount
      = (fetchMore B d seekOk).m_deletedRecordsCount ∧
    (fetchMore B (withCursor d c) seekOk).m_lastRecordIndex
      = (fetchMore B d seekOk).m_lastRecordIndex ∧
    (∀ (index : QModelIndex) (value : QVariant) (d1 : QDbfTableModelPrivate),
      setData d true true index value ItemDataRole.EditRole = some (true, d1) →
      d1.m_lastRecordIndex = d.m_lastRecordIndex ∧
      fetchMore B d1 true = fetchMore B (withCursor d1 d.m_lastRecordIndex) true) ∧
    (∀ (addOk : Nat → Bool) (row count : Int),
      (insertRows d addOk row count).2.m_lastRecordIndex = d.m_lastRecordIndex ∧
      fetchMore B (insertRows d addOk row count).2 true
        = fetchMore B (withCursor (insertRows d addOk row count).2 d.m_lastRecordIndex) true) := by
  refine ⟨rfl, ?_, ?_, ?_, ?_, ?_⟩
  · cases seekOk with
    | false => rw [fetchMore_refused, fetchMore_refused]; rfl
    | true => rfl
  · cases seekOk with
    | false => rw [fetchMore_refused, fetchMore_refused]; rfl
    | true => rfl
  · cases seekOk with
    | false => rw [fetchMore_refused, fetchMore_refused]; rfl
    | true => rfl
  · intro index value d1 hstep
    exact ⟨(setData_frame d true true index value _ true d1 hstep).2.2.2.2,
      (fetchMore_withCursor B d1 _).symm⟩
  · intro addOk row count
    refine ⟨?_, (fetchMore_withCursor B _ _).symm⟩
    by_cases hrow : row = d.m_records.length
    · subst hrow
      exact (insertRows_at_end d addOk count).2.2.2.2.1
    · rw [insertRows_elsewhere d addOk row count hrow]

/-! ## Refused and misplaced inserts -/

theorem grantedCount_prefix (ok : Nat → Bool) : ∀ (k n i : Nat), k < n →
    (∀ j, j < k → ok (i + j) = true) → ok (i + k) = false → grantedCount ok i n = k := by
  intro k
  induction k with
  | zero =>
    intro n i hn _ hstop
    obtain ⟨m, rfl⟩ : ∃ m, n = m + 1 := ⟨n - 1, by omega⟩
    have : ok i = false := by simpa using hstop
    simp [grantedCount, this]
  | succ k ih =>
    intro n i hn hall hstop
    obtain ⟨m, rfl⟩ : ∃ m, n = m + 1 := ⟨n - 1, by omega⟩
    have h0 : ok i = true := by simpa using hall 0 (by omega)
    simp only [grantedCount, h0, if_true]
    rw [ih m (i + 1) (by omega)
      (fun j hj => by have := hall (j + 1) (by omega); rwa [show i + (j + 1) = i + 1 + j by omega] at this)
      (by rwa [show i + (k + 1) = i + 1 + k by omega] at hstop)]

theorem insertLoop_congr (addOk addOk1 : Nat → Bool) : ∀ (n i : Nat) (t : QDbfTable)
    (recs : List QDbfRecord),
    (∀ j, i ≤ j → j ≤ i + grantedCount addOk i n → addOk1 j = addOk j) →
    insertLoop addOk1 n i t recs = insertLoop addOk n i t recs := by
  intro n
  induction n with
  | zero => intro i t recs _; rfl
  | succ n ih =>
    intro i t recs hagree
    have h0 : addOk1 i = addOk i := hagree i (le_refl _) (by omega)
    by_cases h : addOk i = true
    · have hg : grantedCount addOk i (n + 1) = grantedCount addOk (i + 1) n + 1 := by
        simp [grantedCount, h]
      simp only [insertLoop, h0, h, QDbfTable.addRecord, if_true]
      exact ih (i + 1) _ _ (fun j h1 h2 => hagree j (by omega) (by rw [hg]; omega))
    · replace h : addOk i = false := by simpa using h
      simp [insertLoop, h0, h, QDbfTable.addRecord]

/-- C14: `insertRows` at the end when the store grants the first `k` appends and
refuses the next one (`k < count`): the call returns false, the store holds
exactly `k` new records whatever it would have answered to later requests (none
is made), the cache gains exactly the records of these `k` rows at its end if
`rowCount + deletedCount` equalled the physical count before the call and is
unchanged otherwise; the deleted count is unchanged. -/
theorem insertRows_append_refused (d : QDbfTableModelPrivate) (addOk : Nat → Bool)
    (count : Int) (k : Nat) (hk : (k : Int) < count)
    (hgranted : ∀ i, i < k → addOk i = true) (hrefused : addOk k = false) :
    (insertRows d addOk (rowCount d) count).1 = false ∧
    (insertRows d addOk (rowCount d) count).2.m_dbfTable.rows
      = d.m_dbfTable.rows ++ List.replicate k (StoredRow.blank d.m_dbfTable.fieldCount) ∧
    (rowCount d + d.m_deletedRecordsCount = d.m_dbfTable.size →
      (insertRows d addOk (rowCount d) count).2.m_records
        = d.m_records ++ visibleFrom d.m_dbfTable.rows.length
            ((insertRows d addOk (rowCount d) count).2.m_dbfTable.rows.drop
              d.m_dbfTable.rows.length) ∧
      rowCount (insertRows d addOk (rowCount d) count).2 = rowCount d + k) ∧
    (rowCount d + d.m_deletedRecordsCount ≠ d.m_dbfTable.size →
      (insertRows d addOk (rowCount d) count).2.m_records = d.m_records) ∧
    (insertRows d addOk (rowCount d) count).2.m_deletedRecordsCount
      = d.m_deletedRecordsCount ∧
    (∀ addOk1 : Nat → Bool, (∀ j, j ≤ k → addOk1 j = addOk j) →
      insertRows d addOk1 (rowCount d) count = insertRows d addOk (rowCount d) count) := by
  have hkn : k < count.toNat := by
    have e := Int.toNat_of_nonneg (show 0 ≤ count by omega)
    omega
  have hg : grantedCount addOk 0 count.toNat = k :=
    grantedCount_prefix addOk k count.toNat 0 hkn (fun j hj => by simpa using hgranted j hj)
      (by simpa using hrefused)
  obtain ⟨i1, i2, _, i4, _, i6⟩ := insertRows_at_end d addOk count
  rw [hg] at i1 i2 i6
  unfold rowCount
  refine ⟨?_, i2, ?_, ?_, i4, ?_⟩
  · rw [i1]; simp; omega
  · intro hs
    rw [if_pos hs] at i6
    rw [i6, i2]
    simp only [List.drop_left', List.length_append, newRecords_length, Nat.cast_add]
    rw [visibleFrom_replicate_blank]
    exact ⟨rfl, trivial⟩
  · intro hs
    rw [if_neg hs] at i6
    exact i6
  · intro addOk1 hagree
    have hloop := insertLoop_congr addOk addOk1 count.toNat 0 d.m_dbfTable []
      (fun j _ hj => hagree j (by rw [hg] at hj; omega))
    simp only [insertRows, hloop]

/-- Witness for C14: three rows requested on the four loaded rows, the second
append refused. -/
theorem insertRows_append_refused_witness :
    (insertRows fourRows (fun i => decide (i < 1)) (rowCount fourRows) 3).1 = false ∧
    (insertRows fourRows (fun i => decide (i < 1)) (rowCount fourRows) 3).2.m_dbfTable.rows
      = fourRows.m_dbfTable.rows
          ++ List.replicate 1 (StoredRow.blank fourRows.m_dbfTable.fieldCount) :=
  ⟨(insertRows_append_refused fourRows (fun i => decide (i < 1)) 3 1 (by decide)
      (fun i hi => by simp [hi]) (by decide)).1,
   (insertRows_append_refused fourRows (fun i => decide (i < 1)) 3 1 (by decide)
      (fun i hi => by simp [hi]) (by decide)).2.1⟩

/-- C15: `insertRows` at a row other than `rowCount()` returns false, makes no
store request and leaves the store, the cache and the deleted count unchanged. -/
theorem insertRows_not_at_end (d : QDbfTableModelPrivate) (addOk : Nat → Bool)
    (row count : Int) (hrow : row ≠ rowCount d) :
    insertRows d addOk row count = (false, d) ∧
    (insertRows d addOk row count).1 = false ∧
    (insertRows d addOk row count).2.m_dbfTable = d.m_dbfTable ∧
    (insertRows d addOk row count).2.m_records = d.m_records ∧
    (insertRows d addOk row count).2.m_deletedRecordsCount = d.m_deletedRecordsCount := by
  rw [insertRows_elsewhere d addOk row count hrow]
  exact ⟨rfl, rfl, rfl, rfl, rfl⟩

/-- Witness for C15: inserting at row 2 of the four loaded rows. -/
theorem insertRows_not_at_end_witness :
    insertRows fourRows allGranted 2 1 = (false, fourRows) :=
  (insertRows_not_at_end fourRows allGranted 2 1 (by decide)).1

/-! ## What one fetch batch scans and collects -/

theorem visibleFrom_length_add_countP (rows : List StoredRow) : ∀ pos : Nat,
    (visibleFrom pos rows).length + rows.countP (fun r => r.deleted) = rows.length := by
  induction rows with
  | nil => intro pos; simp [visibleFrom]
  | cons r rs ih =>
    intro pos
    by_cases h : r.deleted = true
    · simp only [visibleFrom, h, if_true, List.countP_cons_of_pos, List.length_cons]
      have := ih (pos + 1); omega
    · simp only [visibleFrom, h, if_false, List.length_cons, Bool.false_eq_true]
      rw [List.countP_cons_of_neg _ _ (by simpa using h)]
      have := ih (pos + 1); omega

theorem scanRows_collected (fs : Int) (rows : List StoredRow) (pos : Nat) (fet : Int) :
    (scanRows fs pos fet rows).2.1
      = visibleFrom pos (rows.take (scanRows fs pos fet rows).1) := by
  have hle := scanRows_le fs rows pos fet
  have hvis := scanRows_visible fs rows pos fet
  have hsplit : visibleFrom pos rows
      = visibleFrom pos (rows.take (scanRows fs pos fet rows).1)
        ++ visibleFrom (pos + (scanRows fs pos fet rows).1)
            (rows.drop (scanRows fs pos fet rows).1) := by
    conv_lhs => rw [← List.take_append_drop (scanRows fs pos fet rows).1 rows]
    rw [visibleFrom_append, List.length_take, Nat.min_eq_left hle]
  rw [hsplit] at hvis
  exact List.append_cancel_right hvis

theorem scanRows_deleted (fs : Int) (rows : List StoredRow) (pos : Nat) (fet : Int) :
    (scanRows fs pos fet rows).2.2
      = (rows.take (scanRows fs pos fet rows).1).countP (fun r => r.deleted) := by
  have hle := scanRows_le fs rows pos fet
  have hcount := scanRows_count fs rows pos fet
  have hlen := visibleFrom_length_add_countP (rows.take (scanRows fs pos fet rows).1) pos
  rw [← scanRows_collected, List.length_take, Nat.min_eq_left hle] at hlen
  omega

/-- C16: one fetch batch with `want > 0` and the seek granted, the resume cursor
lying inside the file.  The batch appends exactly the first `want` non-deleted
records after the resume cursor (all of them when fewer remain), in physical
order, never more than the batch size; these are the live rows among the rows
scanned, the new resume cursor is the last row scanned, and the deleted count
grows by exactly the number of deleted rows among the rows scanned. -/
theorem fetchMore_batch (B : Int) (d : QDbfTableModelPrivate)
    (hlo : -1 ≤ d.m_lastRecordIndex) (hhi : d.m_lastRecordIndex < d.m_dbfTable.size)
    (hwant : 0 < want B d) :
    (fetchMore B d true).m_records
      = d.m_records ++ (pendingRecords d).take (want B d).toNat ∧
    ((pendingRecords d).take (want B d).toNat).length
      = min (want B d).toNat (pendingRecords d).length ∧
    (((pendingRecords d).take (want B d).toNat).length : Int) ≤ B ∧
    d.m_lastRecordIndex ≤ (fetchMore B d true).m_lastRecordIndex ∧
    (fetchMore B d true).m_lastRecordIndex < d.m_dbfTable.size ∧
    (pendingRecords d).take (want B d).toNat
      = visibleFrom (d.m_lastRecordIndex + 1).toNat
          (scannedRows d.m_dbfTable.rows d.m_lastRecordIndex
            (fetchMore B d true).m_lastRecordIndex) ∧
    (fetchMore B d true).m_deletedRecordsCount
      = d.m_deletedRecordsCount +
          ((scannedRows d.m_dbfTable.rows d.m_lastRecordIndex
            (fetchMore B d true).m_lastRecordIndex).countP (fun r => r.deleted) : Nat) := by
  have e := Int.toNat_of_nonneg (show 0 ≤ d.m_lastRecordIndex + 1 by omega)
  have hc1 : d.m_lastRecordIndex = (((d.m_lastRecordIndex + 1).toNat : Nat) : Int) - 1 := by
    omega
  have hc2 : (d.m_lastRecordIndex + 1).toNat ≤ d.m_dbfTable.rows.length := by
    unfold QDbfTable.size at hhi; omega
  rw [fetchMore_granted B d _ hc1 hc2]
  unfold want at hwant ⊢
  generalize hfs : min (d.m_dbfTable.size - d.m_records.length - d.m_deletedRecordsCount) B
    = fs at hwant ⊢
  generalize hp : (d.m_lastRecordIndex + 1).toNat = p at hc1 hc2 e
  have htake := scanRows_take fs (d.m_dbfTable.rows.drop p) p 0 hwant
  have hcoll := scanRows_collected fs (d.m_dbfTable.rows.drop p) p 0
  have hdel := scanRows_deleted fs (d.m_dbfTable.rows.drop p) p 0
  have hle := scanRows_le fs (d.m_dbfTable.rows.drop p) p 0
  have hlen : (d.m_dbfTable.rows.drop p).length = d.m_dbfTable.rows.length - p := by simp
  rw [hlen] at hle
  simp only [sub_zero] at htake
  have hscan : scannedRows d.m_dbfTable.rows d.m_lastRecordIndex
      (((p + (scanRows fs p 0 (d.m_dbfTable.rows.drop p)).1 : Nat) : Int) - 1)
      = (d.m_dbfTable.rows.drop p).take (scanRows fs p 0 (d.m_dbfTable.rows.drop p)).1 := by
    unfold scannedRows
    rw [hp]
    congr 1
    have : ((p + (scanRows fs p 0 (d.m_dbfTable.rows.drop p)).1 : Nat) : Int) - 1
        - d.m_lastRecordIndex = ((scanRows fs p 0 (d.m_dbfTable.rows.drop p)).1 : Int) := by
      push_cast; omega
    rw [this, Int.toNat_ofNat]
  have hB : fs ≤ B := by rw [← hfs]; exact min_le_right _ _
  have hfsnat := Int.toNat_of_nonneg (le_of_lt hwant)
  simp only [pendingRecords, hp, hscan]
  refine ⟨by rw [htake], by simp [List.length_take], ?_, ?_, ?_, ?_, ?_⟩
  · have : ((visibleFrom p (d.m_dbfTable.rows.drop p)).take fs.toNat).length ≤ fs.toNat := by
      simp [List.length_take]
    omega
  · omega
  · unfold QDbfTable.size; omega
  · rw [← htake, ← hcoll]
  · rw [← hdel]

set_option maxRecDepth 100000 in
/-- Witness for C16: 300 physical records, the records 50 to 99 deleted, batch
size 100.  The first batch holds 100 rows, from the physical records 0 to 49 and
100 to 149, and the deleted count becomes 50. -/
theorem fetchMore_batch_witness :
    (fetchMore 100 threeHundred true).m_records
      = threeHundred.m_records ++ (pendingRecords threeHundred).take
          (want 100 threeHundred).toNat ∧
    want 100 threeHundred = 100 ∧
    cachedIndices (fetchMore 100 threeHundred true)
      = (List.range 50).map (fun (i : Nat) => (i : Int))
        ++ (List.range 50).map (fun (i : Nat) => ((i + 100 : Nat) : Int)) ∧
    (fetchMore 100 threeHundred true).m_deletedRecordsCount = 50 ∧
    (fetchMore 100 threeHundred true).m_lastRecordIndex = 149 :=
  ⟨(fetchMore_batch 100 threeHundred (by decide) (by decide) (by decide)).1,
   by decide, by decide, by decide, by decide⟩

/-! ## The cached physical indices -/

theorem visibleFrom_indices (rows : List StoredRow) : ∀ pos : Nat,
    (∀ i, i ∈ (visibleFrom pos rows).map (fun r => r.recordIndex) →
      (pos : Int) ≤ i ∧ i < (pos : Int) + rows.length) ∧
    ((visibleFrom pos rows).map (fun r => r.recordIndex)).Pairwise (fun a b => a < b) := by
  induction rows with
  | nil => intro pos; simp [visibleFrom]
  | cons r rs ih =>
    intro pos
    obtain ⟨ih1, ih2⟩ := ih (pos + 1)
    by_cases h : r.deleted = true
    · simp only [visibleFrom, h, if_true, List.length_cons]
      refine ⟨fun i hi => ?_, ih2⟩
      have := ih1 i hi
      push_cast at this ⊢
      omega
    · simp only [visibleFrom, h, if_false, Bool.false_eq_true, List.map_cons,
        List.length_cons, List.mem_cons, List.pairwise_cons, StoredRow.toRecord]
      refine ⟨fun i hi => ?_, fun i hi => ?_, ih2⟩
      · rcases hi with hi | hi
        · subst hi; push_cast; omega
        · have := ih1 i hi
          push_cast at this ⊢
          omega
      · have := ih1 i hi
        push_cast at this
        omega

theorem compactLoop_sublist : ∀ (n : Nat) (i : Int) (records records1 : List QDbfRecord),
    compactLoop n i records = some records1 → records1.Sublist records := by
  intro n
  induction n with
  | zero =>
    intro i records records1 h
    simp only [compactLoop, Option.some.injEq] at h
    rw [h]
  | succ n ih =>
    intro i records records1 h
    by_cases hi : 0 ≤ i ∧ i < records.length
    · simp only [compactLoop, QVector.remove, hi, and_self, if_true] at h
      exact (ih _ _ _ h).trans (List.eraseIdx_sublist _ _)
    · simp [compactLoop, QVector.remove, hi] at h

theorem removeRows_sublist (d : QDbfTableModelPrivate) (removeOk : Nat → Bool) (row count : Int)
    (result : Bool) (d1 : QDbfTableModelPrivate)
    (h : removeRows d removeOk row count = some (result, d1)) :
    d1.m_records.Sublist d.m_records := by
  unfold removeRows at h
  split at h
  · simp only [Option.some.injEq, Prod.mk.injEq] at h
    rw [← h.2]
  · simp only at h
    split at h
    · cases h
    · split at h
      · split at h
        · cases h
        · rename_i records hc
          simp only [Option.some.injEq, Prod.mk.injEq] at h
          rw [← h.2]
          exact compactLoop_sublist _ _ _ _ hc
      · simp only [Option.some.injEq, Prod.mk.injEq] at h
        rw [← h.2]

theorem setData_indices (d : QDbfTableModelPrivate) (seekOk writeOk : Bool) (index : QModelIndex)
    (value : QVariant) (role : ItemDataRole) (result : Bool) (d1 : QDbfTableModelPrivate)
    (h : setData d seekOk writeOk index value role = some (result, d1)) :
    cachedIndices d1 = cachedIndices d := by
  have hmod : ∀ (l : List QDbfRecord) (n : Nat),
      (l.modify (fun x => x.setValue index.column value) n).map (fun r => r.recordIndex)
        = l.map (fun r => r.recordIndex) := by
    intro l
    induction l with
    | nil => intro n; cases n <;> rfl
    | cons a l ih =>
      intro n
      cases n with
      | zero =>
        simp only [List.modify, List.modifyTailIdx, List.modifyHead, List.map_cons]
        congr 1
        unfold QDbfRecord.setValue
        split <;> rfl
      | succ n =>
        simp only [List.modify_succ_cons, List.map_cons]
        rw [ih n]
  unfold setData at h
  split at h
  · simp only [Option.some.injEq, Prod.mk.injEq] at h
    rw [← h.2]
  · split at h
    · split at h
      · cases h
      · simp only at h
        split at h
        · simp only [Option.some.injEq, Prod.mk.injEq] at h
          rw [← h.2]; rfl
        · split at h
          · simp only [Option.some.injEq, Prod.mk.injEq] at h
            rw [← h.2]; rfl
          · simp only [Option.some.injEq, Prod.mk.injEq] at h
            rw [← h.2]
            exact hmod _ _
    · simp only [Option.some.injEq, Prod.mk.injEq] at h
      rw [← h.2]

/-! ## The index invariant holds in every session state -/

theorem IndexInv.kept_by_fetchMore (B : Int) {d : QDbfTableModelPrivate} (seekOk : Bool)
    (hi : IndexInv d) (hc : Coupled d)
    (hgap : (d.m_records.length : Int) + d.m_deletedRecordsCount < d.m_dbfTable.size) :
    IndexInv (fetchMore B d seekOk) := by
  cases seekOk with
  | false => rw [fetchMore_refused]; exact hi
  | true =>
    obtain ⟨hc1, hc2⟩ := hc.cursor
    obtain ⟨i1, i2, i3⟩ := hi
    obtain ⟨c1, c2, c3⟩ := hc
    have hold := i3 hgap
    rw [fetchMore_granted B d _ hc1 hc2]
    generalize min (d.m_dbfTable.size - d.m_records.length - d.m_deletedRecordsCount) B = fs
    generalize hp : (d.m_lastRecordIndex + 1).toNat = p at hc1 hc2
    have hle := scanRows_le fs (d.m_dbfTable.rows.drop p) p 0
    have hlen : (d.m_dbfTable.rows.drop p).length = d.m_dbfTable.rows.length - p := by simp
    rw [hlen] at hle
    have hcoll := scanRows_collected fs (d.m_dbfTable.rows.drop p) p 0
    obtain ⟨v1, v2⟩ := visibleFrom_indices
      ((d.m_dbfTable.rows.drop p).take (scanRows fs p 0 (d.m_dbfTable.rows.drop p)).1) p
    have hklen : ((d.m_dbfTable.rows.drop p).take
        (scanRows fs p 0 (d.m_dbfTable.rows.drop p)).1).length
        = (scanRows fs p 0 (d.m_dbfTable.rows.drop p)).1 := by
      rw [List.length_take, hlen]; omega
    rw [← hcoll, hklen] at v1
    rw [← hcoll] at v2
    unfold QDbfTable.size at i2 c2
    refine ⟨?_, ?_, ?_⟩
    · simp only [cachedIndices, List.map_append]
      rw [List.pairwise_append]
      refine ⟨i1, v2, fun a ha b hb => ?_⟩
      have := hold a ha
      have := v1 b hb
      omega
    · intro i hi
      simp only [cachedIndices, List.map_append, List.mem_append] at hi
      simp only [QDbfTable.size]
      rcases hi with h | h
      · exact i2 i h
      · have := v1 i h
        omega
    · intro _ i hi
      simp only [cachedIndices, List.map_append, List.mem_append] at hi
      simp only
      rcases hi with h | h
      · have := hold i h
        push_cast
        omega
      · have := v1 i h
        push_cast
        omega

theorem IndexInv.kept_by_open (B : Int) (d0 : QDbfTableModelPrivate) (seekOk readOnly : Bool) :
    IndexInv (openModel B d0 true seekOk readOnly).2 := by
  have hempty : IndexInv (openedEmpty d0 readOnly) := by
    refine ⟨?_, ?_, ?_⟩ <;> simp [cachedIndices, openedEmpty]
  rw [openModel_eq]
  by_cases hcan : canFetchMore (openedEmpty d0 readOnly) = true
  · rw [if_pos hcan]
    have hgap : ((openedEmpty d0 readOnly).m_records.length : Int)
        + (openedEmpty d0 readOnly).m_deletedRecordsCount
        < (openedEmpty d0 readOnly).m_dbfTable.size := by
      simpa [canFetchMore, openedEmpty] using hcan
    exact hempty.kept_by_fetchMore B seekOk (openedEmpty_coupled d0 readOnly) hgap
  · rw [if_neg hcan]
    exact hempty

theorem IndexInv.kept_by_insertRows {d : QDbfTableModelPrivate} (addOk : Nat → Bool)
    (row count : Int) (hi : IndexInv d) (hc : CountInv d) :
    IndexInv (insertRows d addOk row count).2 := by
  by_cases hrow : row = d.m_records.length
  · subst hrow
    obtain ⟨_, j2, _, j4, j5, j6⟩ := insertRows_at_end d addOk count
    obtain ⟨i1, i2, i3⟩ := hi
    obtain ⟨_, _, _, h3, _⟩ := hc
    generalize insertRows d addOk d.m_records.length count = res at j2 j4 j5 j6
    generalize grantedCount addOk 0 count.toNat = g at j2 j6
    have hsize : res.2.m_dbfTable.size = d.m_dbfTable.size + (g : Int) := by
      simp [QDbfTable.size, j2]
    obtain ⟨v1, v2⟩ := visibleFrom_indices
      (List.replicate g (StoredRow.blank d.m_dbfTable.fieldCount)) d.m_dbfTable.rows.length
    rw [visibleFrom_replicate_blank, List.length_replicate] at v1
    rw [visibleFrom_replicate_blank] at v2
    have hsz : d.m_dbfTable.size = (d.m_dbfTable.rows.length : Int) := rfl
    by_cases hs : (d.m_records.length : Int) + d.m_deletedRecordsCount = d.m_dbfTable.size
    · rw [if_pos hs] at j6
      have hidx : cachedIndices res.2 = cachedIndices d
          ++ (newRecords d.m_dbfTable.fieldCount d.m_dbfTable.size g).map
              (fun r => r.recordIndex) := by
        simp [cachedIndices, j6]
      rw [hsz] at hidx
      refine ⟨?_, ?_, ?_⟩
      · rw [hidx, List.pairwise_append]
        refine ⟨i1, v2, fun a ha b hb => ?_⟩
        have := i2 a ha
        have := v1 b hb
        omega
      · intro i hi
        rw [hidx, List.mem_append] at hi
        rw [hsize]
        rcases hi with h | h
        · have := i2 i h; omega
        · have := v1 i h; omega
      · intro hgap
        rw [hsize, j6, j4] at hgap
        simp only [List.length_append, newRecords_length] at hgap
        push_cast at hgap
        omega
    · rw [if_neg hs] at j6
      have hidx : cachedIndices res.2 = cachedIndices d := by simp [cachedIndices, j6]
      refine ⟨by rw [hidx]; exact i1, ?_, ?_⟩
      · intro i hi
        rw [hidx] at hi
        rw [hsize]
        have := i2 i hi
        omega
      · intro _ i hi
        rw [hidx] at hi
        rw [j5]
        exact i3 (by omega) i hi
  · rw [insertRows_elsewhere d addOk row count hrow]
    exact hi

theorem IndexInv.of_sublist {d d1 : QDbfTableModelPrivate} (hi : IndexInv d)
    (hsub : (cachedIndices d1).Sublist (cachedIndices d))
    (hsum : (d1.m_records.length : Int) + d1.m_deletedRecordsCount
      = (d.m_records.length : Int) + d.m_deletedRecordsCount)
    (hrows : d1.m_dbfTable.rows.length = d.m_dbfTable.rows.length)
    (hlast : d1.m_lastRecordIndex = d.m_lastRecordIndex) : IndexInv d1 := by
  obtain ⟨i1, i2, i3⟩ := hi
  have hsize : d1.m_dbfTable.size = d.m_dbfTable.size := by simp [QDbfTable.size, hrows]
  refine ⟨i1.sublist hsub, fun i hi => ?_, fun hgap i hi => ?_⟩
  · rw [hsize]; exact i2 i (hsub.subset hi)
  · rw [hlast]
    exact i3 (by rw [← hsum, ← hsize]; exact hgap) i (hsub.subset hi)

theorem QDbfTableModel.Reachable.indexInv {B : Int} {d : QDbfTableModelPrivate}
    (h : Reachable B d) : IndexInv d := by
  induction h with
  | opened d0 seekOk readOnly => exact IndexInv.kept_by_open B d0 seekOk readOnly
  | loadMore d seekOk hr hcan ih =>
    have hc := hr.countInv
    exact ih.kept_by_fetchMore B seekOk (hc.coupled (hc.gap hcan)) (hc.gap hcan)
  | insertRows d addOk row count hr ih => exact ih.kept_by_insertRows addOk row count hr.countInv
  | removeRows d removeOk row count result d1 _ hstep ih =>
    obtain ⟨r1, _, r3, _, r5⟩ := removeRows_frame d removeOk row count result d1 hstep
    exact ih.of_sublist ((removeRows_sublist d removeOk row count result d1 hstep).map _)
      r1 r3 r5
  | setData d seekOk writeOk index value role result d1 _ hstep ih =>
    obtain ⟨s1, s2, s3, _, s5⟩ := setData_frame d seekOk writeOk index value role result d1 hstep
    have hidx := setData_indices d seekOk writeOk index value role result d1 hstep
    exact ih.of_sublist (by rw [hidx]) (by rw [s1, s2]) s3 s5

/-- C13: in every state reachable from a successful open by `fetchMore` (called
while `canFetchMore` holds), `insertRows`, `removeRows` and `setData`, the
physical indices of the cached records strictly increase with the logical
position; so no physical record is cached twice. -/
theorem reachable_indices_increasing (B : Int) (d : QDbfTableModelPrivate)
    (h : Reachable B d) :
    (cachedIndices d).Pairwise (fun a b => a < b) ∧
    (∀ (i j : Nat) (ri rj : QDbfRecord), i < j →
      d.m_records[i]? = some ri → d.m_records[j]? = some rj →
      ri.recordIndex < rj.recordIndex) ∧
    (cachedIndices d).Nodup := by
  have hp := h.indexInv.1
  refine ⟨hp, ?_, ?_⟩
  · intro i j ri rj hij hi hj
    have hp1 : d.m_records.Pairwise (fun a b => a.recordIndex < b.recordIndex) :=
      List.pairwise_map.1 hp
    obtain ⟨hi1, rfl⟩ := List.getElem?_eq_some_iff.1 hi
    obtain ⟨hj1, rfl⟩ := List.getElem?_eq_some_iff.1 hj
    exact List.pairwise_iff_getElem.1 hp1 i j hi1 hj1 hij
  · exact hp.imp (fun hab => ne_of_lt hab)

/-- Witness for C13: the partially loaded session `gapSession`. -/
theorem reachable_indices_increasing_witness :
    Reachable 2 gapSession ∧ (cachedIndices gapSession).Pairwise (fun a b => a < b) ∧
    cachedIndices gapSession = [0, 2] :=
  ⟨gapSession_reachable, (reachable_indices_increasing 2 gapSession gapSession_reachable).1,
    by decide⟩

/-- C19: in every state reachable from a successful open in which `canFetchMore`
is true, `rowCount + deletedCount = resumeCursor + 1`; every cached record has a
physical index between 0 and the resume cursor (none lies after it), and these
indices are strictly increasing. -/
theorem reachable_resume_cursor_coupled (B : Int) (d : QDbfTableModelPrivate)
    (h : Reachable B d) (hcan : canFetchMore d = true) :
    rowCount d + d.m_deletedRecordsCount = d.m_lastRecordIndex + 1 ∧
    (∀ i, i ∈ cachedIndices d → 0 ≤ i ∧ i ≤ d.m_lastRecordIndex) ∧
    (cachedIndices d).Pairwise (fun a b => a < b) := by
  have hc := h.countInv
  obtain ⟨i1, i2, i3⟩ := h.indexInv
  have hgap := hc.gap hcan
  exact ⟨(hc.coupled hgap).2.2, fun i hi => ⟨(i2 i hi).1, i3 hgap i hi⟩, i1⟩

/-- Witness for C19: the partially loaded session `gapSession` (two rows cached,
one deleted row met, resume cursor 2). -/
theorem reachable_resume_cursor_coupled_witness :
    Reachable 2 gapSession ∧ canFetchMore gapSession = true ∧
    rowCount gapSession + gapSession.m_deletedRecordsCount
      = gapSession.m_lastRecordIndex + 1 ∧
    gapSession.m_lastRecordIndex = 2 :=
  ⟨gapSession_reachable, by decide,
    (reachable_resume_cursor_coupled 2 gapSession gapSession_reachable (by decide)).1,
    by decide⟩

/-- C20: in every state reachable from a successful open in which `canFetchMore`
is true, one `fetchMore` whose seek is granted strictly increases
`rowCount + deletedCount`; repeating `fetchMore` while `canFetchMore` holds
therefore reaches a state where `canFetchMore` is false within as many batches as
records are still unaccounted for, in particular within `physicalCount` batches,
the store's records being unchanged. -/
theorem fetchMore_progress (B : Int) (d : QDbfTableModelPrivate)
    (h : Reachable B d) (hcan : canFetchMore d = true) :
    rowCount d + d.m_deletedRecordsCount
      < rowCount (fetchMore B d true) + (fetchMore B d true).m_deletedRecordsCount ∧
    canFetchMore (loadAll B
      (d.m_dbfTable.size - (rowCount d + d.m_deletedRecordsCount)).toNat d) = false ∧
    (d.m_dbfTable.size - (rowCount d + d.m_deletedRecordsCount)).toNat
      ≤ d.m_dbfTable.rows.length ∧
    canFetchMore (loadAll B d.m_dbfTable.rows.length d) = false ∧
    (loadAll B d.m_dbfTable.rows.length d).m_dbfTable.rows = d.m_dbfTable.rows := by
  have hc := h.countInv
  have hgap := hc.gap hcan
  have hcp := hc.coupled hgap
  obtain ⟨c1, c2, c3⟩ := hcp
  have hprog := (fetchMore_coupled B d true ⟨c1, c2, c3⟩).2.2.2.2.2.2.2 rfl hgap
  have e := Int.toNat_of_nonneg
    (show 0 ≤ d.m_dbfTable.size - ((d.m_records.length : Int) + d.m_deletedRecordsCount) by
      omega)
  obtain ⟨l1, _⟩ := loadAll_coupled B
    (d.m_dbfTable.size - ((d.m_records.length : Int) + d.m_deletedRecordsCount)).toNat d
    ⟨c1, c2, c3⟩ hc.1 (by omega)
  obtain ⟨m1, _, m3, _⟩ := loadAll_coupled B d.m_dbfTable.rows.length d ⟨c1, c2, c3⟩ hc.1
    (by unfold QDbfTable.size at c2 ⊢; omega)
  unfold rowCount
  refine ⟨hprog, l1, ?_, m1, m3⟩
  unfold QDbfTable.size at e c2 ⊢
  omega

/-- Witness for C20: the partially loaded session `gapSession`. -/
theorem fetchMore_progress_witness :
    Reachable 2 gapSession ∧ canFetchMore gapSession = true ∧
    rowCount gapSession + gapSession.m_deletedRecordsCount
      < rowCount (fetchMore 2 gapSession true)
        + (fetchMore 2 gapSession true).m_deletedRecordsCount ∧
    canFetchMore (loadAll 2 gapSession.m_dbfTable.rows.length gapSession) = false :=
  ⟨gapSession_reachable, by decide,
    (fetchMore_progress 2 gapSession gapSession_reachable (by decide)).1,
    (fetchMore_progress 2 gapSession gapSession_reachable (by decide)).2.2.2.1⟩

/-! ## Bounds of the compaction loop -/

/-- The compaction loop over `n` rows starting at index `i` stays inside the
vector exactly when it runs zero times or its last index `i + n - 1` is smaller
than the size left at that moment, `length - (n - 1)`. -/
theorem compactLoop_isSome_iff : ∀ (n : Nat) (i : Int) (records : List QDbfRecord),
    0 ≤ i →
    ((compactLoop n i records).isSome = true ↔
      (n = 0 ∨ i + 2 * (n : Int) - 2 < records.length)) := by
  intro n
  induction n with
  | zero => intro i records _; simp [compactLoop]
  | succ n ih =>
    intro i records h0
    by_cases hi : i < records.length
    · have e := Int.toNat_of_nonneg h0
      have hlt : i.toNat < records.length := by omega
      simp only [compactLoop, QVector.remove, h0, hi, and_self, if_true]
      rw [ih (i + 1) _ (by omega), List.length_eraseIdx]
      simp only [hlt, if_true]
      constructor
      · intro h
        right
        rcases h with h | h
        · subst h; push_cast; omega
        · push_cast at h ⊢; omega
      · intro h
        rcases h with h | h
        · omega
        · by_cases hn : n = 0
          · exact Or.inl hn
          · right; push_cast at h ⊢; omega
    · simp only [compactLoop, QVector.remove, h0, hi, and_false, if_false, Option.isSome_none,
        Bool.false_eq_true, false_iff, not_or]
      exact ⟨by omega, by push_cast; omega⟩

/-- C18, the code at the failing input: `removeRows(2, 2)` on a cache of four rows
with both store requests granted.  The compaction loop runs over the indices 2
and 3: the removal at index 2 leaves three rows, so the index 3 of the second
removal is not smaller than the size 3 at that moment. -/
theorem compactLoop_index_out_of_range :
    fourRows.m_records.length = 4 ∧
    (∃ t, removeLoop allGranted fourRows.m_records 2 0 2 fourRows.m_dbfTable (-1)
        = some (true, t, 3)) ∧
    (∃ records1, QVector.remove fourRows.m_records 2 = some records1 ∧
      (records1.length : Int) = 3 ∧ ¬ ((3 : Int) < records1.length) ∧
      QVector.remove records1 3 = none) ∧
    (compactLoop 2 2 fourRows.m_records).isSome = false := by
  refine ⟨by decide, ⟨_, rfl⟩, ⟨_, rfl, by decide, by decide, by decide⟩, by decide⟩

end QDbf
